import Mathlib

/-!
# Verification of the "see-no-numbers" masking engine

Shallow embedding of the classification-and-substitution engine found in
`src/unnamed/part_000` (content script) and `src/injection.js` (canvas hook).
Both files contain the same engine: `findDateRanges`, `indexInRanges` and
`transformString` working over JavaScript regular expressions with the `g`
(and for words/months the `i`) flag.  Strings are modelled as `List Char`,
the regexes as deterministic matchers that reproduce the greedy/backtracking
behaviour of the concrete patterns, and the global-flag `exec` loop as an
explicit scan with a `lastIndex` state.
-/

set_option maxRecDepth 20000
set_option maxHeartbeats 2000000

namespace SeeNo

/-! ## Character classes (JS semantics for the patterns in use) -/

/-- `\d` of the source regexes. -/
def isDigitChar (c : Char) : Bool := 48 ≤ c.toNat && c.toNat ≤ 57

/-- ASCII `a`–`z`. -/
def isLowerAZ (c : Char) : Bool := 97 ≤ c.toNat && c.toNat ≤ 122

/-- ASCII `A`–`Z`. -/
def isUpperAZ (c : Char) : Bool := 65 ≤ c.toNat && c.toNat ≤ 90

/-- The class `[0-9a-zA-Z]` used by the character-preserving replacement in
`transformString` (src/unnamed/part_000 line 101, src/injection.js line 137). -/
def isAlnumChar (c : Char) : Bool := isDigitChar c || isLowerAZ c || isUpperAZ c

/-- An ASCII letter. -/
def isLetterAZ (c : Char) : Bool := isLowerAZ c || isUpperAZ c

/-- JS `\w`, the class that defines word boundaries `\b`. -/
def isWordChar (c : Char) : Bool := isAlnumChar c || c.toNat = 95

/-- JS `\s` (the whitespace class used by `\s*` / `\s+` in the patterns). -/
def isSpaceChar (c : Char) : Bool :=
  c.toNat = 32 || c.toNat = 9 || c.toNat = 10 || c.toNat = 11 || c.toNat = 12 ||
  c.toNat = 13 || c.toNat = 160 || c.toNat = 5760 ||
  (8192 ≤ c.toNat && c.toNat ≤ 8202) ||
  c.toNat = 8232 || c.toNat = 8233 || c.toNat = 8239 || c.toNat = 8287 ||
  c.toNat = 12288 || c.toNat = 65279

/-- Case folding used for the `i` flag on the ASCII-letter patterns
(`wordRegex`, month names, `Day`): uppercase ASCII folds to lowercase,
everything else is left alone (non-`u` JS regexes do not fold non-ASCII
characters onto ASCII). -/
def lowerChar (c : Char) : Char :=
  if isUpperAZ c then Char.ofNat (c.toNat + 32) else c

/-- The magnitude-suffix class `[kKmMbBtT]` of `numberWithSuffixRegex`. -/
def isSuffixLetter (c : Char) : Bool :=
  c.toNat = 107 || c.toNat = 75 || c.toNat = 109 || c.toNat = 77 ||
  c.toNat = 98 || c.toNat = 66 || c.toNat = 116 || c.toNat = 84

/-! ## List scanning helpers -/

/-- Number of leading characters matched by a greedy `\d+` / `\d*`. -/
def takeDigits : List Char → Nat
  | [] => 0
  | c :: cs => if isDigitChar c then takeDigits cs + 1 else 0

/-- Number of leading characters matched by a greedy `\s*` / `\s+`. -/
def countSpace : List Char → Nat
  | [] => 0
  | c :: cs => if isSpaceChar c then countSpace cs + 1 else 0

/-- Case-insensitive literal match: the (lowercase) pattern `w` matches a
prefix of the input. -/
def matchWordCI : List Char → List Char → Bool
  | [], _ => true
  | _ :: _, [] => false
  | p :: ps, c :: cs => lowerChar c == p && matchWordCI ps cs

/-- One step per group of the greedy `(?:[.,]\d+)*` iteration of
`numberWithSuffixRegex`; the fuel only forces structural termination and
`l.length` is always enough (each group consumes at least two
characters). -/
def sepGroupsF : Nat → List Char → Nat
  | 0, _ => 0
  | _ + 1, [] => 0
  | fuel + 1, c :: cs =>
    if c == '.' || c == ',' then
      let d := takeDigits cs
      if d = 0 then 0 else 1 + d + sepGroupsF fuel (cs.drop d)
    else 0

/-- Total length consumed by the greedy `(?:[.,]\d+)*` group of
`numberWithSuffixRegex`. -/
def sepGroups (l : List Char) : Nat := sepGroupsF l.length l

/-! ## Positions and word boundaries -/

/-- Is the character at absolute index `i` a word character (out-of-range
counts as non-word, as in JS `\b` at the ends of the string)? -/
def isWordCharAt (text : List Char) (i : Nat) : Bool :=
  match text.get? i with
  | some c => isWordChar c
  | none => false

/-- Word-character-ness of the character just before position `i`. -/
def prevIsWordChar (text : List Char) : Nat → Bool
  | 0 => false
  | i + 1 => isWordCharAt text i

/-- JS `\b` at position `i`: the two sides differ in word-character-ness. -/
def isBoundary (text : List Char) (i : Nat) : Bool :=
  prevIsWordChar text i != isWordCharAt text i

/-! ## Static word data from the source -/

/-- Helper to spell the literal tokens. -/
def s2l (s : String) : List Char := s.data

/-- `numberWords` (src/unnamed/part_000 lines 30–36, src/injection.js
lines 44–50), in source order — the order is the regex alternation order. -/
def numberWords : List (List Char) :=
  [s2l "zero", s2l "one", s2l "two", s2l "three", s2l "four", s2l "five",
   s2l "six", s2l "seven", s2l "eight", s2l "nine", s2l "ten", s2l "eleven",
   s2l "twelve", s2l "thirteen", s2l "fourteen", s2l "fifteen", s2l "sixteen",
   s2l "seventeen", s2l "eighteen", s2l "nineteen", s2l "twenty", s2l "thirty",
   s2l "forty", s2l "fifty", s2l "sixty", s2l "seventy", s2l "eighty",
   s2l "ninety", s2l "hundred", s2l "thousand", s2l "million", s2l "billion",
   s2l "trillion"]

/-- The month alternation of the first date pattern, in source order,
lowercased (the pattern carries the `i` flag). -/
def monthNames : List (List Char) :=
  [s2l "jan", s2l "feb", s2l "mar", s2l "apr", s2l "may", s2l "jun",
   s2l "jul", s2l "aug", s2l "sep", s2l "sept", s2l "oct", s2l "nov",
   s2l "dec", s2l "january", s2l "february", s2l "march", s2l "april",
   s2l "may", s2l "june", s2l "july", s2l "august", s2l "september",
   s2l "october", s2l "november", s2l "december"]

/-! ## The numeric matcher

`numberWithSuffixRegex = /\d+(?:[.,]\d+)*(?:\s*(?:[kKmMbBtT](?:n)?\b))?/g`
(src/unnamed/part_000 line 39, src/injection.js line 60).  The pattern is
case-sensitive: the optional second suffix letter is a literal lowercase
`n`.  Greedy matching of `\d+` and `(?:[.,]\d+)*` needs no backtracking
because no later sub-pattern can consume a digit, `.`, or `,`; the optional
suffix backtracks from `letter n \b` to `letter \b` to absent. -/

/-- Length of the optional `(?:\s*(?:[kKmMbBtT](?:n)?\b))?` suffix starting
at absolute position `p`; `0` when the group matches the empty string. -/
def suffixAt (text : List Char) (p : Nat) : Nat :=
  let ws := countSpace (text.drop p)
  match text.get? (p + ws) with
  | some c =>
    if isSuffixLetter c then
      if text.get? (p + ws + 1) == some 'n' && isBoundary text (p + ws + 2) then
        ws + 2
      else if isBoundary text (p + ws + 1) then ws + 1
      else 0
    else 0
  | none => 0

/-- Match length of `numberWithSuffixRegex` anchored at position `pos`. -/
def numberWithSuffixMatchAt (text : List Char) (pos : Nat) : Option Nat :=
  let d := takeDigits (text.drop pos)
  if d = 0 then none
  else
    let g := sepGroups (text.drop (pos + d))
    some (d + g + suffixAt text (pos + d + g))

/-! ## The word matcher

`wordRegex = new RegExp(`\b(word|…)\b`, 'gi')`.  JS alternation tries the
words in array order; an alternative succeeds only if the trailing `\b`
also matches. -/

/-- Match length of `wordRegex` anchored at position `pos`. -/
def wordMatchAt (text : List Char) (pos : Nat) : Option Nat :=
  if isBoundary text pos then
    (numberWords.find? fun w =>
        matchWordCI w (text.drop pos) && isBoundary text (pos + w.length)).map
      List.length
  else none

/-! ## The four date patterns (src/unnamed/part_000 lines 41–46) -/

/-- Continuation of date pattern 1 after a month of length `mlen` matched at
`pos`: `\s+\d{1,2}(?:,\s*\d{2,4})?`.  Returns the total match length. -/
def p1Tail (text : List Char) (pos : Nat) (mlen : Nat) : Option Nat :=
  let ws := countSpace (text.drop (pos + mlen))
  if ws = 0 then none
  else
    let d := takeDigits (text.drop (pos + mlen + ws))
    if d = 0 then none
    else
      let day := min d 2
      let a := mlen + ws + day
      if text.get? (pos + a) == some ',' then
        let ws2 := countSpace (text.drop (pos + a + 1))
        let y := takeDigits (text.drop (pos + a + 1 + ws2))
        if 2 ≤ y then some (a + 1 + ws2 + min y 4) else some a
      else some a

/-- `/\b(?:Jan|Feb|…|December)\s+\d{1,2}(?:,\s*\d{2,4})?/gi` anchored at
`pos`.  Alternatives are tried in source order; an alternative whose
continuation fails is abandoned for the next one. -/
def datePattern1MatchAt (text : List Char) (pos : Nat) : Option Nat :=
  if isBoundary text pos then
    monthNames.findSome? fun m =>
      if matchWordCI m (text.drop pos) then p1Tail text pos m.length else none
  else none

/-- The `(?:\/\d{2,4})?\b` tail of date pattern 2 at absolute position `q`
(backtracking `\d{2,4}` from 4 down to 2); returns the extra length
consumed when the optional group is present. -/
def p2OptTail (text : List Char) (q : Nat) : Option Nat :=
  if text.get? q == some '/' then
    let d3 := takeDigits (text.drop (q + 1))
    if 4 ≤ d3 && isBoundary text (q + 1 + 4) then some 5
    else if 3 ≤ d3 && isBoundary text (q + 1 + 3) then some 4
    else if 2 ≤ d3 && isBoundary text (q + 1 + 2) then some 3
    else none
  else none

/-- After `b` digits of the second `\d{1,2}` were consumed at `p2abs`: try
the optional `(?:\/\d{2,4})?` greedily, else require `\b` right there.
Returns the length from `p2abs`. -/
def p2SecondPart (text : List Char) (p2abs : Nat) (b : Nat) : Option Nat :=
  match p2OptTail text (p2abs + b) with
  | some extra => some (b + extra)
  | none => if isBoundary text (p2abs + b) then some b else none

/-- The part of date pattern 2 after the first `/`: `\d{1,2}` (greedy,
backtracking 2 → 1), then `p2SecondPart`. -/
def p2AfterSlash (text : List Char) (p2abs : Nat) : Option Nat :=
  let d2 := takeDigits (text.drop p2abs)
  if d2 = 0 then none
  else if 2 ≤ d2 then
    match p2SecondPart text p2abs 2 with
    | some len2 => some len2
    | none => p2SecondPart text p2abs 1
  else p2SecondPart text p2abs 1

/-- With `a` digits of the first `\d{1,2}` consumed at `pos`: require `/`
then the rest. -/
def p2Head (text : List Char) (pos : Nat) (a : Nat) : Option Nat :=
  if text.get? (pos + a) == some '/' then
    match p2AfterSlash text (pos + a + 1) with
    | some len2 => some (a + 1 + len2)
    | none => none
  else none

/-- `/\b\d{1,2}\/\d{1,2}(?:\/\d{2,4})?\b/g` anchored at `pos`. -/
def datePattern2MatchAt (text : List Char) (pos : Nat) : Option Nat :=
  if isBoundary text pos then
    let d1 := takeDigits (text.drop pos)
    if d1 = 0 then none
    else if 2 ≤ d1 then
      match p2Head text pos 2 with
      | some L => some L
      | none => p2Head text pos 1
    else p2Head text pos 1
  else none

/-- `/\b\d{4}\b/g` anchored at `pos`. -/
def datePattern3MatchAt (text : List Char) (pos : Nat) : Option Nat :=
  if isBoundary text pos && 4 ≤ takeDigits (text.drop pos) &&
      isBoundary text (pos + 4) then
    some 4
  else none

/-- `/\bDay\s+\d{1,2}\b/gi` anchored at `pos`.  With two or more digits
available the greedy `\d{1,2}` takes two and the trailing `\b` decides;
the one-digit fallback would sit between two digits and can never yield a
boundary. -/
def datePattern4MatchAt (text : List Char) (pos : Nat) : Option Nat :=
  if isBoundary text pos && matchWordCI (s2l "day") (text.drop pos) then
    let ws := countSpace (text.drop (pos + 3))
    if ws = 0 then none
    else
      let d := takeDigits (text.drop (pos + 3 + ws))
      if d = 0 then none
      else if d = 1 then
        if isBoundary text (pos + 3 + ws + 1) then some (3 + ws + 1) else none
      else
        if isBoundary text (pos + 3 + ws + 2) then some (3 + ws + 2) else none
  else none

/-! ## Ranges and the global `exec` scan -/

/-- A protected range `{start, end}` (half-open, original-string offsets).
The source's `end` field is called `stop` here (`end` is a Lean keyword). -/
structure Range where
  start : Nat
  stop : Nat
deriving DecidableEq

/-- `indexInRanges(index, ranges)` (src/unnamed/part_000 lines 69–76):
true iff some range satisfies `start <= index < end`. -/
def indexInRanges (index : Nat) (ranges : List Range) : Bool :=
  ranges.any fun r => r.start ≤ index && index < r.stop

/-- The `while ((match = re.exec(text)) !== null)` loop of `findDateRanges`
for one global-flag pattern, with the pattern's `lastIndex` state made
explicit.  `exec` scans for the leftmost match at or after `lastIndex`
(modelled one position at a time), pushes its range and sets `lastIndex`
to the match end; when no further match exists it resets `lastIndex` to 0
and the loop ends.  Returns the collected ranges and the final
`lastIndex`.  `fuel` only forces termination; `text.length + 2` is always
enough. -/
def execLoopSt (m : List Char → Nat → Option Nat) (text : List Char) :
    Nat → Nat → List Range × Nat
  | 0, li => ([], li)
  | fuel + 1, li =>
    match m text li with
    | some L =>
      let p := execLoopSt m text fuel (li + L)
      (⟨li, li + L⟩ :: p.1, p.2)
    | none =>
      match text.get? li with
      | some _ => execLoopSt m text fuel (li + 1)
      | none => ([], 0)

/-- All matches of one pattern, scanning from position 0 (the state a
freshly created regex starts in). -/
def execAll (m : List Char → Nat → Option Nat) (text : List Char) :
    List Range :=
  (execLoopSt m text (text.length + 2) 0).1

/-- `findDateRanges(text)` (src/unnamed/part_000 lines 53–62): each of the
four `datePatterns` is run to exhaustion over the whole string and all
ranges are pushed into one list, in pattern order. -/
def findDateRanges (text : List Char) : List Range :=
  execAll datePattern1MatchAt text ++ execAll datePattern2MatchAt text ++
  execAll datePattern3MatchAt text ++ execAll datePattern4MatchAt text

/-- `findDateRanges` with the four shared global patterns' `lastIndex`
states threaded explicitly, to reason about repeated invocations on the
module-level `datePatterns` array. -/
def findDateRangesSt (text : List Char) (st : Nat × Nat × Nat × Nat) :
    List Range × (Nat × Nat × Nat × Nat) :=
  let r1 := execLoopSt datePattern1MatchAt text (text.length + 2) st.1
  let r2 := execLoopSt datePattern2MatchAt text (text.length + 2) st.2.1
  let r3 := execLoopSt datePattern3MatchAt text (text.length + 2) st.2.2.1
  let r4 := execLoopSt datePattern4MatchAt text (text.length + 2) st.2.2.2
  (r1.1 ++ r2.1 ++ r3.1 ++ r4.1, (r1.2, r2.2, r3.2, r4.2))

/-! ## `String.prototype.replace` with a global regex and a callback -/

/-- The scan performed by `text.replace(re, cb)` for a global `re`:
unmatched characters are copied, each match (leftmost first) is replaced
by `f match offset` where `offset` is the match's index in the scanned
string, and scanning resumes at the match end. -/
def replaceScan (m : List Char → Nat → Option Nat)
    (f : List Char → Nat → List Char) (text : List Char) :
    Nat → Nat → List Char
  | 0, _ => []
  | fuel + 1, pos =>
    match m text pos with
    | some L =>
      f ((text.drop pos).take L) pos ++ replaceScan m f text fuel (pos + L)
    | none =>
      match text.get? pos with
      | some c => c :: replaceScan m f text fuel (pos + 1)
      | none => []

/-- `text.replace(re, f)` from the start of the string. -/
def stringReplace (m : List Char → Nat → Option Nat)
    (f : List Char → Nat → List Char) (text : List Char) : List Char :=
  replaceScan m f text (text.length + 2) 0

/-- The same scan, recording what it saw instead of rendering it: a `lit`
piece is a copied character, a `mat` piece is a match together with its
offset in the scanned string. -/
inductive Piece where
  | lit : Char → Piece
  | mat : Nat → List Char → Piece
deriving DecidableEq

/-- Decomposition scan underlying `replaceScan`. -/
def decomposeScan (m : List Char → Nat → Option Nat) (text : List Char) :
    Nat → Nat → List Piece
  | 0, _ => []
  | fuel + 1, pos =>
    match m text pos with
    | some L =>
      Piece.mat pos ((text.drop pos).take L) ::
        decomposeScan m text fuel (pos + L)
    | none =>
      match text.get? pos with
      | some c => Piece.lit c :: decomposeScan m text fuel (pos + 1)
      | none => []

/-- The pieces a full replace pass over `text` processes. -/
def pieces (m : List Char → Nat → Option Nat) (text : List Char) :
    List Piece :=
  decomposeScan m text (text.length + 2) 0

/-- What one piece contributes to the output of a replace pass with
callback `f`. -/
def pieceOut (f : List Char → Nat → List Char) : Piece → List Char
  | .lit c => [c]
  | .mat off s => f s off

/-- Rendering a decomposition with a callback. -/
def renderWith (f : List Char → Nat → List Char) (ps : List Piece) :
    List Char :=
  (ps.map (pieceOut f)).flatten

/-- The original characters a piece stands for. -/
def pieceSrc : Piece → List Char
  | .lit c => [c]
  | .mat _ s => s

/-! ## The engine -/

/-- The configuration consumed by `transformString`. -/
structure Config where
  enabled : Bool
  hideMagnitude : Bool
deriving DecidableEq

/-- The replacement character `•` (U+2022). -/
def bullet : Char := '•'

/-- The fixed `'•••'` replacement of hide-magnitude mode. -/
def bullets3 : List Char := [bullet, bullet, bullet]

/-- The character-preserving replacement of the numeric pass: `[0-9a-zA-Z]`
becomes `•`, every other character is kept
(src/unnamed/part_000 lines 98–107). -/
def maskAlnum (s : List Char) : List Char :=
  s.map fun c => if isAlnumChar c then bullet else c

/-- Callback of the numeric pass (src/unnamed/part_000 lines 91–108): the
second callback parameter is the match offset, because
`numberWithSuffixRegex` has no capture groups. -/
def numRepl (config : Config) (ranges : List Range) (s : List Char)
    (offset : Nat) : List Char :=
  if indexInRanges offset ranges then s
  else if config.hideMagnitude then bullets3
  else maskAlnum s

/-- The range test the word-pass callback actually performs.  The callback
is declared `(match, offset) => …`, but `wordRegex` has a capture group, so
JS passes `(match, captureGroup1, offset, string)` and the parameter named
`offset` receives the captured word — a string.  `indexInRanges` then
compares that string with numbers; JS relational comparison coerces the
string with `ToNumber`, which for the alphabetic words this callback
receives yields `NaN`, making both comparisons false.  We model the
coercion for the strings that can reach this point: a nonempty all-digit
string is read as a number, anything else compares as `NaN` (test false). -/
def capturedInRanges (captured : List Char) (ranges : List Range) : Bool :=
  if captured.all isDigitChar && !captured.isEmpty then
    indexInRanges (captured.foldl (fun a c => a * 10 + (c.toNat - 48)) 0)
      ranges
  else false

/-- Callback of the word pass (src/unnamed/part_000 lines 110–118): the
parameter named `offset` is bound to the captured word (see
`capturedInRanges`), so the protected-range test inspects the matched word
rather than its position. -/
def wordRepl (config : Config) (ranges : List Range) (s : List Char)
    (_offset : Nat) : List Char :=
  if capturedInRanges s ranges then s
  else if config.hideMagnitude then bullets3
  else List.replicate s.length bullet

/-- `transformString(text, config)` (src/unnamed/part_000 lines 87–120,
src/injection.js lines 119–158): compute the protected ranges once from the
input, run the numeric pass over the input, then run the word pass over the
numeric pass's result, both passes closing over the same `ranges`. -/
def transformString (text : List Char) (config : Config) : List Char :=
  let ranges := findDateRanges text
  let result := stringReplace numberWithSuffixMatchAt
    (numRepl config ranges) text
  stringReplace wordMatchAt (wordRepl config ranges) result

/-- The intermediate string after the numeric pass. -/
def numPassResult (text : List Char) (config : Config) : List Char :=
  stringReplace numberWithSuffixMatchAt
    (numRepl config (findDateRanges text)) text

/-- The gate both call sites place in front of the engine: the content
script's `initialize` returns before any processing when
`!config.enabled` (src/unnamed/part_000 lines 210–212), and the injected
canvas script installs no overrides at all in that case
(src/injection.js lines 37–39), so the text reaching the page is the
untransformed input. -/
def applyMaskingAtCallSite (text : List Char) (config : Config) :
    List Char :=
  if config.enabled then transformString text config else text

/-! ## Character-class facts -/

theorem isDigitChar_isWordChar {c : Char} (h : isDigitChar c = true) :
    isWordChar c = true := by
  simp only [isWordChar, isAlnumChar, Bool.or_eq_true]
  exact Or.inl (Or.inl (Or.inl h))

theorem isLetterAZ_isWordChar {c : Char} (h : isLetterAZ c = true) :
    isWordChar c = true := by
  simp only [isLetterAZ, Bool.or_eq_true] at h
  simp only [isWordChar, isAlnumChar, Bool.or_eq_true]
  rcases h with h | h
  · exact Or.inl (Or.inl (Or.inr h))
  · exact Or.inl (Or.inr h)

theorem isLetterAZ_isAlnumChar {c : Char} (h : isLetterAZ c = true) :
    isAlnumChar c = true := by
  simp only [isLetterAZ, Bool.or_eq_true] at h
  simp only [isAlnumChar, Bool.or_eq_true]
  rcases h with h | h
  · exact Or.inl (Or.inr h)
  · exact Or.inr h

theorem isDigitChar_not_letter {c : Char} (h : isDigitChar c = true) :
    isLetterAZ c = false := by
  simp only [isDigitChar, Bool.and_eq_true, decide_eq_true_eq] at h
  simp only [isLetterAZ, isLowerAZ, isUpperAZ, Bool.or_eq_false_iff,
    Bool.and_eq_false_iff, decide_eq_false_iff_not, not_le]
  omega

theorem isDigitChar_not_upper {c : Char} (h : isDigitChar c = true) :
    isUpperAZ c = false := by
  simp only [isDigitChar, Bool.and_eq_true, decide_eq_true_eq] at h
  simp only [isUpperAZ, Bool.and_eq_false_iff, decide_eq_false_iff_not, not_le]
  omega

theorem isDigitChar_not_lower {c : Char} (h : isDigitChar c = true) :
    isLowerAZ c = false := by
  simp only [isDigitChar, Bool.and_eq_true, decide_eq_true_eq] at h
  simp only [isLowerAZ, Bool.and_eq_false_iff, decide_eq_false_iff_not, not_le]
  omega

theorem isSpaceChar_not_word {c : Char} (h : isSpaceChar c = true) :
    isWordChar c = false := by
  simp only [isSpaceChar, Bool.or_eq_true, Bool.and_eq_true,
    decide_eq_true_eq] at h
  simp only [isWordChar, isAlnumChar, isDigitChar, isLowerAZ, isUpperAZ,
    Bool.or_eq_false_iff, Bool.and_eq_false_iff, decide_eq_false_iff_not,
    not_le]
  omega

theorem isSpaceChar_not_letter {c : Char} (h : isSpaceChar c = true) :
    isLetterAZ c = false := by
  simp only [isSpaceChar, Bool.or_eq_true, Bool.and_eq_true,
    decide_eq_true_eq] at h
  simp only [isLetterAZ, isLowerAZ, isUpperAZ, Bool.or_eq_false_iff,
    Bool.and_eq_false_iff, decide_eq_false_iff_not, not_le]
  omega

theorem isSpaceChar_not_upper {c : Char} (h : isSpaceChar c = true) :
    isUpperAZ c = false := by
  simp only [isSpaceChar, Bool.or_eq_true, Bool.and_eq_true,
    decide_eq_true_eq] at h
  simp only [isUpperAZ, Bool.and_eq_false_iff, decide_eq_false_iff_not, not_le]
  omega

theorem isSpaceChar_not_lower {c : Char} (h : isSpaceChar c = true) :
    isLowerAZ c = false := by
  simp only [isSpaceChar, Bool.or_eq_true, Bool.and_eq_true,
    decide_eq_true_eq] at h
  simp only [isLowerAZ, Bool.and_eq_false_iff, decide_eq_false_iff_not, not_le]
  omega

theorem lowerChar_of_not_upper {c : Char} (h : isUpperAZ c = false) :
    lowerChar c = c := by
  unfold lowerChar
  rw [h]
  simp

/-- If the folded character is a lowercase letter then the character was an
ASCII letter. -/
theorem isLetterAZ_of_lowerChar {c : Char} (h : isLowerAZ (lowerChar c) = true) :
    isLetterAZ c = true := by
  by_cases hu : isUpperAZ c = true
  · simp [isLetterAZ, hu]
  · have hf : isUpperAZ c = false := by
      revert hu; cases isUpperAZ c <;> simp
    rw [lowerChar_of_not_upper hf] at h
    simp [isLetterAZ, h]

/-! ## Scanning-helper facts -/

theorem takeDigits_le (s : List Char) : takeDigits s ≤ s.length := by
  induction s with
  | nil => simp [takeDigits]
  | cons c cs ih =>
    simp only [takeDigits, List.length_cons]
    split
    · omega
    · omega

theorem takeDigits_get :
    ∀ (s : List Char) (k : Nat), k < takeDigits s →
      ∃ c, s.get? k = some c ∧ isDigitChar c = true := by
  intro s
  induction s with
  | nil => intro k hk; simp [takeDigits] at hk
  | cons c cs ih =>
    intro k hk
    simp only [takeDigits] at hk
    by_cases hd : isDigitChar c
    · simp only [hd, if_true] at hk
      cases k with
      | zero => exact ⟨c, rfl, hd⟩
      | succ k => exact ih k (by omega)
    · simp [hd] at hk

theorem countSpace_le (s : List Char) : countSpace s ≤ s.length := by
  induction s with
  | nil => simp [countSpace]
  | cons c cs ih =>
    simp only [countSpace, List.length_cons]
    split
    · omega
    · omega

theorem countSpace_get :
    ∀ (s : List Char) (k : Nat), k < countSpace s →
      ∃ c, s.get? k = some c ∧ isSpaceChar c = true := by
  intro s
  induction s with
  | nil => intro k hk; simp [countSpace] at hk
  | cons c cs ih =>
    intro k hk
    simp only [countSpace] at hk
    by_cases hd : isSpaceChar c
    · simp only [hd, if_true] at hk
      cases k with
      | zero => exact ⟨c, rfl, hd⟩
      | succ k => exact ih k (by omega)
    · simp [hd] at hk

theorem sepGroupsF_le : ∀ (fuel : Nat) (s : List Char),
    sepGroupsF fuel s ≤ s.length := by
  intro fuel
  induction fuel with
  | zero => intro s; simp [sepGroupsF]
  | succ fuel ih =>
    intro s
    cases s with
    | nil => simp [sepGroupsF]
    | cons c cs =>
      simp only [sepGroupsF]
      split
      · by_cases hdz : takeDigits cs = 0
        · rw [if_pos hdz]; simp
        · rw [if_neg hdz]
          have hdle : takeDigits cs ≤ cs.length := takeDigits_le cs
          have hrec := ih (cs.drop (takeDigits cs))
          simp only [List.length_drop] at hrec
          simp only [List.length_cons]
          omega
      · simp

theorem sepGroups_le (s : List Char) : sepGroups s ≤ s.length :=
  sepGroupsF_le s.length s

theorem matchWordCI_length :
    ∀ (w s : List Char), matchWordCI w s = true → w.length ≤ s.length := by
  intro w
  induction w with
  | nil => intro s _; simp
  | cons p ps ih =>
    intro s hm
    cases s with
    | nil => simp [matchWordCI] at hm
    | cons c cs =>
      simp only [matchWordCI, Bool.and_eq_true] at hm
      have := ih cs hm.2
      simp only [List.length_cons]
      omega

theorem matchWordCI_get :
    ∀ (w s : List Char), matchWordCI w s = true →
      ∀ k, k < w.length →
        ∃ cw c, w.get? k = some cw ∧ s.get? k = some c ∧ lowerChar c = cw := by
  intro w
  induction w with
  | nil => intro s _ k hk; simp at hk
  | cons p ps ih =>
    intro s hm k hk
    cases s with
    | nil => simp [matchWordCI] at hm
    | cons c cs =>
      simp only [matchWordCI, Bool.and_eq_true, beq_iff_eq] at hm
      cases k with
      | zero => exact ⟨p, c, rfl, rfl, hm.1⟩
      | succ k =>
        simp only [List.length_cons] at hk
        exact ih cs hm.2 k (by omega)

/-! ## Matcher well-formedness: a match is nonempty and stays inside the
string -/

/-- A matcher never reports a match of length 0 and never reports a match
extending past the end of the string. -/
def MatcherOK (m : List Char → Nat → Option Nat) : Prop :=
  ∀ (text : List Char) (pos L : Nat), m text pos = some L →
    1 ≤ L ∧ pos + L ≤ text.length

theorem numberWords_facts :
    ∀ w ∈ numberWords, 3 ≤ w.length ∧ w.all isLowerAZ = true := by decide

theorem monthNames_facts :
    ∀ m ∈ monthNames, 3 ≤ m.length ∧ m.all isLowerAZ = true := by decide

theorem suffixAt_le (text : List Char) (p : Nat) :
    suffixAt text p = 0 ∨ p + suffixAt text p ≤ text.length := by
  simp only [suffixAt]
  cases hg : text.get? (p + countSpace (text.drop p)) with
  | none => exact Or.inl rfl
  | some c =>
    dsimp only
    by_cases hs : isSuffixLetter c = true
    · rw [if_pos hs]
      by_cases hn : (text.get? (p + countSpace (text.drop p) + 1) == some 'n'
          && isBoundary text (p + countSpace (text.drop p) + 2)) = true
      · rw [if_pos hn]
        right
        simp only [Bool.and_eq_true, beq_iff_eq] at hn
        obtain ⟨hlt, -⟩ := List.get?_eq_some.mp hn.1
        omega
      · rw [if_neg hn]
        by_cases hb : isBoundary text (p + countSpace (text.drop p) + 1) = true
        · rw [if_pos hb]
          right
          obtain ⟨hlt, -⟩ := List.get?_eq_some.mp hg
          omega
        · rw [if_neg hb]
          exact Or.inl rfl
    · rw [if_neg hs]
      exact Or.inl rfl

theorem numberWithSuffixMatchAt_ok : MatcherOK numberWithSuffixMatchAt := by
  intro text pos L h
  simp only [numberWithSuffixMatchAt] at h
  by_cases hd : takeDigits (text.drop pos) = 0
  · rw [if_pos hd] at h; cases h
  · rw [if_neg hd] at h
    have hL := Option.some.inj h
    have h1 : takeDigits (text.drop pos) ≤ text.length - pos := by
      have := takeDigits_le (text.drop pos)
      simpa [List.length_drop] using this
    have h2 : sepGroups (text.drop (pos + takeDigits (text.drop pos))) ≤
        text.length - (pos + takeDigits (text.drop pos)) := by
      have := sepGroups_le (text.drop (pos + takeDigits (text.drop pos)))
      simpa [List.length_drop] using this
    rcases suffixAt_le text (pos + takeDigits (text.drop pos) +
        sepGroups (text.drop (pos + takeDigits (text.drop pos)))) with h3 | h3
    · omega
    · omega

theorem wordMatchAt_ok : MatcherOK wordMatchAt := by
  intro text pos L h
  simp only [wordMatchAt] at h
  by_cases hb : isBoundary text pos = true
  · rw [if_pos hb] at h
    cases hf : numberWords.find? fun w =>
        matchWordCI w (text.drop pos) && isBoundary text (pos + w.length) with
    | none => rw [hf] at h; cases h
    | some w =>
      rw [hf] at h
      simp only [Option.map_some'] at h
      have hL := Option.some.inj h
      have hw := List.find?_some hf
      have hmem := List.mem_of_find?_eq_some hf
      simp only [Bool.and_eq_true] at hw
      have hlen := matchWordCI_length w (text.drop pos) hw.1
      simp only [List.length_drop] at hlen
      have h3 := (numberWords_facts w hmem).1
      omega
  · rw [if_neg hb] at h; cases h

theorem p1Tail_le {text : List Char} {pos mlen L : Nat}
    (h : p1Tail text pos mlen = some L) :
    mlen + 2 ≤ L ∧ pos + L ≤ text.length := by
  simp only [p1Tail] at h
  by_cases hw : countSpace (text.drop (pos + mlen)) = 0
  · rw [if_pos hw] at h; cases h
  · rw [if_neg hw] at h
    by_cases hd : takeDigits (text.drop (pos + mlen +
        countSpace (text.drop (pos + mlen)))) = 0
    · rw [if_pos hd] at h; cases h
    · rw [if_neg hd] at h
      have h1 : countSpace (text.drop (pos + mlen)) ≤
          text.length - (pos + mlen) := by
        have := countSpace_le (text.drop (pos + mlen))
        simpa [List.length_drop] using this
      have h2 : takeDigits (text.drop (pos + mlen +
          countSpace (text.drop (pos + mlen)))) ≤
          text.length - (pos + mlen + countSpace (text.drop (pos + mlen))) := by
        have := takeDigits_le (text.drop (pos + mlen +
          countSpace (text.drop (pos + mlen))))
        simpa [List.length_drop] using this
      by_cases hc : (text.get? (pos + (mlen + countSpace (text.drop (pos + mlen)) +
          min (takeDigits (text.drop (pos + mlen +
            countSpace (text.drop (pos + mlen))))) 2)) == some ',') = true
      · rw [if_pos hc] at h
        simp only [beq_iff_eq] at hc
        obtain ⟨hlt, -⟩ := List.get?_eq_some.mp hc
        by_cases hy : 2 ≤ takeDigits (text.drop (pos + (mlen +
            countSpace (text.drop (pos + mlen)) +
            min (takeDigits (text.drop (pos + mlen +
              countSpace (text.drop (pos + mlen))))) 2) + 1 +
            countSpace (text.drop (pos + (mlen +
              countSpace (text.drop (pos + mlen)) +
              min (takeDigits (text.drop (pos + mlen +
                countSpace (text.drop (pos + mlen))))) 2) + 1))))
        · rw [if_pos hy] at h
          have hL := Option.some.inj h
          have h4 : countSpace (text.drop (pos + (mlen +
              countSpace (text.drop (pos + mlen)) +
              min (takeDigits (text.drop (pos + mlen +
                countSpace (text.drop (pos + mlen))))) 2) + 1)) ≤
              text.length - (pos + (mlen + countSpace (text.drop (pos + mlen)) +
              min (takeDigits (text.drop (pos + mlen +
                countSpace (text.drop (pos + mlen))))) 2) + 1) := by
            have := countSpace_le (text.drop (pos + (mlen +
              countSpace (text.drop (pos + mlen)) +
              min (takeDigits (text.drop (pos + mlen +
                countSpace (text.drop (pos + mlen))))) 2) + 1))
            simpa [List.length_drop] using this
          have h5 : takeDigits (text.drop (pos + (mlen +
              countSpace (text.drop (pos + mlen)) +
              min (takeDigits (text.drop (pos + mlen +
                countSpace (text.drop (pos + mlen))))) 2) + 1 +
              countSpace (text.drop (pos + (mlen +
                countSpace (text.drop (pos + mlen)) +
                min (takeDigits (text.drop (pos + mlen +
                  countSpace (text.drop (pos + mlen))))) 2) + 1)))) ≤
              text.length - (pos + (mlen + countSpace (text.drop (pos + mlen)) +
              min (takeDigits (text.drop (pos + mlen +
                countSpace (text.drop (pos + mlen))))) 2) + 1 +
              countSpace (text.drop (pos + (mlen +
                countSpace (text.drop (pos + mlen)) +
                min (takeDigits (text.drop (pos + mlen +
                  countSpace (text.drop (pos + mlen))))) 2) + 1))) := by
            have := takeDigits_le (text.drop (pos + (mlen +
              countSpace (text.drop (pos + mlen)) +
              min (takeDigits (text.drop (pos + mlen +
                countSpace (text.drop (pos + mlen))))) 2) + 1 +
              countSpace (text.drop (pos + (mlen +
                countSpace (text.drop (pos + mlen)) +
                min (takeDigits (text.drop (pos + mlen +
                  countSpace (text.drop (pos + mlen))))) 2) + 1))))
            simpa [List.length_drop] using this
          omega
        · rw [if_neg hy] at h
          have hL := Option.some.inj h
          omega
      · rw [if_neg hc] at h
        have hL := Option.some.inj h
        omega

theorem datePattern1MatchAt_ok : MatcherOK datePattern1MatchAt := by
  intro text pos L h
  simp only [datePattern1MatchAt] at h
  by_cases hb : isBoundary text pos = true
  · rw [if_pos hb] at h
    obtain ⟨m, _, hm⟩ := List.exists_of_findSome?_eq_some h
    by_cases hci : matchWordCI m (text.drop pos) = true
    · rw [if_pos hci] at hm
      have := p1Tail_le hm
      omega
    · rw [if_neg hci] at hm; cases hm
  · rw [if_neg hb] at h; cases h

theorem p2OptTail_le {text : List Char} {q extra : Nat}
    (h : p2OptTail text q = some extra) :
    1 ≤ extra ∧ q + extra ≤ text.length := by
  simp only [p2OptTail] at h
  by_cases hs : (text.get? q == some '/') = true
  · rw [if_pos hs] at h
    have hd : takeDigits (text.drop (q + 1)) ≤ text.length - (q + 1) := by
      have := takeDigits_le (text.drop (q + 1))
      simpa [List.length_drop] using this
    by_cases h4 : (4 ≤ takeDigits (text.drop (q + 1)) &&
        isBoundary text (q + 1 + 4)) = true
    · rw [if_pos h4] at h
      have hL := Option.some.inj h
      simp only [Bool.and_eq_true, decide_eq_true_eq] at h4
      omega
    · rw [if_neg h4] at h
      by_cases h3 : (3 ≤ takeDigits (text.drop (q + 1)) &&
          isBoundary text (q + 1 + 3)) = true
      · rw [if_pos h3] at h
        have hL := Option.some.inj h
        simp only [Bool.and_eq_true, decide_eq_true_eq] at h3
        omega
      · rw [if_neg h3] at h
        by_cases h2 : (2 ≤ takeDigits (text.drop (q + 1)) &&
            isBoundary text (q + 1 + 2)) = true
        · rw [if_pos h2] at h
          have hL := Option.some.inj h
          simp only [Bool.and_eq_true, decide_eq_true_eq] at h2
          omega
        · rw [if_neg h2] at h; cases h
  · rw [if_neg hs] at h; cases h

theorem p2SecondPart_le {text : List Char} {p2abs b len2 : Nat}
    (hb : 1 ≤ b) (hdig : b ≤ text.length - p2abs)
    (h : p2SecondPart text p2abs b = some len2) :
    1 ≤ len2 ∧ p2abs + len2 ≤ text.length := by
  simp only [p2SecondPart] at h
  cases ho : p2OptTail text (p2abs + b) with
  | some extra =>
    rw [ho] at h
    have hL := Option.some.inj h
    have := p2OptTail_le ho
    omega
  | none =>
    rw [ho] at h
    by_cases hbd : isBoundary text (p2abs + b) = true
    · rw [if_pos hbd] at h
      have hL := Option.some.inj h
      omega
    · rw [if_neg hbd] at h; cases h

theorem p2AfterSlash_le {text : List Char} {p2abs len2 : Nat}
    (h : p2AfterSlash text p2abs = some len2) :
    1 ≤ len2 ∧ p2abs + len2 ≤ text.length := by
  simp only [p2AfterSlash] at h
  have hd : takeDigits (text.drop p2abs) ≤ text.length - p2abs := by
    have := takeDigits_le (text.drop p2abs)
    simpa [List.length_drop] using this
  by_cases h0 : takeDigits (text.drop p2abs) = 0
  · rw [if_pos h0] at h; cases h
  · rw [if_neg h0] at h
    by_cases h2 : 2 ≤ takeDigits (text.drop p2abs)
    · rw [if_pos h2] at h
      cases hs : p2SecondPart text p2abs 2 with
      | some v =>
        rw [hs] at h
        have hL := Option.some.inj h
        have := p2SecondPart_le (by omega) (by omega) hs
        omega
      | none =>
        rw [hs] at h
        exact p2SecondPart_le (by omega) (by omega) h
    · rw [if_neg h2] at h
      exact p2SecondPart_le (by omega) (by omega) h

theorem p2Head_le {text : List Char} {pos a L : Nat}
    (h : p2Head text pos a = some L) :
    a + 2 ≤ L ∧ pos + L ≤ text.length := by
  simp only [p2Head] at h
  by_cases hs : (text.get? (pos + a) == some '/') = true
  · rw [if_pos hs] at h
    cases ha : p2AfterSlash text (pos + a + 1) with
    | some len2 =>
      rw [ha] at h
      have hL := Option.some.inj h
      have := p2AfterSlash_le ha
      omega
    | none => rw [ha] at h; cases h
  · rw [if_neg hs] at h; cases h

theorem datePattern2MatchAt_ok : MatcherOK datePattern2MatchAt := by
  intro text pos L h
  simp only [datePattern2MatchAt] at h
  by_cases hb : isBoundary text pos = true
  · rw [if_pos hb] at h
    by_cases h0 : takeDigits (text.drop pos) = 0
    · rw [if_pos h0] at h; cases h
    · rw [if_neg h0] at h
      by_cases h2 : 2 ≤ takeDigits (text.drop pos)
      · rw [if_pos h2] at h
        cases hh : p2Head text pos 2 with
        | some v =>
          rw [hh] at h
          have hL := Option.some.inj h
          have := p2Head_le hh
          omega
        | none =>
          rw [hh] at h
          have := p2Head_le h
          omega
      · rw [if_neg h2] at h
        have := p2Head_le h
        omega
  · rw [if_neg hb] at h; cases h

theorem datePattern3MatchAt_ok : MatcherOK datePattern3MatchAt := by
  intro text pos L h
  simp only [datePattern3MatchAt] at h
  by_cases hc : (isBoundary text pos && 4 ≤ takeDigits (text.drop pos) &&
      isBoundary text (pos + 4)) = true
  · rw [if_pos hc] at h
    have hL := Option.some.inj h
    simp only [Bool.and_eq_true, decide_eq_true_eq] at hc
    have hd : takeDigits (text.drop pos) ≤ text.length - pos := by
      have := takeDigits_le (text.drop pos)
      simpa [List.length_drop] using this
    have := hc.1.2
    omega
  · rw [if_neg hc] at h; cases h

theorem datePattern4MatchAt_ok : MatcherOK datePattern4MatchAt := by
  intro text pos L h
  simp only [datePattern4MatchAt] at h
  by_cases hc : (isBoundary text pos && matchWordCI (s2l "day")
      (text.drop pos)) = true
  · rw [if_pos hc] at h
    simp only [Bool.and_eq_true] at hc
    have hml := matchWordCI_length _ _ hc.2
    simp only [List.length_drop, s2l] at hml
    by_cases hw : countSpace (text.drop (pos + 3)) = 0
    · rw [if_pos hw] at h; cases h
    · rw [if_neg hw] at h
      have h1 : countSpace (text.drop (pos + 3)) ≤ text.length - (pos + 3) := by
        have := countSpace_le (text.drop (pos + 3))
        simpa [List.length_drop] using this
      have h2 : takeDigits (text.drop (pos + 3 +
          countSpace (text.drop (pos + 3)))) ≤
          text.length - (pos + 3 + countSpace (text.drop (pos + 3))) := by
        have := takeDigits_le (text.drop (pos + 3 +
          countSpace (text.drop (pos + 3))))
        simpa [List.length_drop] using this
      by_cases h0 : takeDigits (text.drop (pos + 3 +
          countSpace (text.drop (pos + 3)))) = 0
      · rw [if_pos h0] at h; cases h
      · rw [if_neg h0] at h
        by_cases hone : takeDigits (text.drop (pos + 3 +
            countSpace (text.drop (pos + 3)))) = 1
        · rw [if_pos hone] at h
          by_cases hbd : isBoundary text (pos + 3 +
              countSpace (text.drop (pos + 3)) + 1) = true
          · rw [if_pos hbd] at h
            have hL := Option.some.inj h
            omega
          · rw [if_neg hbd] at h; cases h
        · rw [if_neg hone] at h
          by_cases hbd : isBoundary text (pos + 3 +
              countSpace (text.drop (pos + 3)) + 2) = true
          · rw [if_pos hbd] at h
            have hL := Option.some.inj h
            omega
          · rw [if_neg hbd] at h; cases h
  · rw [if_neg hc] at h; cases h

/-! ## Facts about the global `exec` scan -/

/-- After the `while (exec) … null` loop finishes, the pattern's
`lastIndex` is back to 0, whatever it started from. -/
theorem execLoopSt_snd_eq_zero {m : List Char → Nat → Option Nat}
    (hm : MatcherOK m) (text : List Char) :
    ∀ fuel li, text.length + 1 - li < fuel →
      (execLoopSt m text fuel li).2 = 0 := by
  intro fuel
  induction fuel with
  | zero => intro li h; omega
  | succ fuel ih =>
    intro li h
    simp only [execLoopSt]
    cases hmatch : m text li with
    | some L =>
      dsimp only
      have hb := hm text li L hmatch
      exact ih (li + L) (by omega)
    | none =>
      dsimp only
      cases hg : text.get? li with
      | some c =>
        obtain ⟨hlt, -⟩ := List.get?_eq_some.mp hg
        exact ih (li + 1) (by omega)
      | none => rfl

/-- Every range the loop reports is a match of the pattern at its start
offset, at or after the scan origin. -/
theorem execLoopSt_sound {m : List Char → Nat → Option Nat}
    (text : List Char) :
    ∀ fuel li r, r ∈ (execLoopSt m text fuel li).1 →
      ∃ s L, r = ⟨s, s + L⟩ ∧ m text s = some L ∧ li ≤ s := by
  intro fuel
  induction fuel with
  | zero => intro li r hr; simp [execLoopSt] at hr
  | succ fuel ih =>
    intro li r hr
    simp only [execLoopSt] at hr
    cases hmatch : m text li with
    | some L =>
      rw [hmatch] at hr
      dsimp only at hr
      cases hr with
      | head => exact ⟨li, L, rfl, hmatch, le_refl li⟩
      | tail _ htail =>
        obtain ⟨s, L', h1, h2, h3⟩ := ih (li + L) r htail
        exact ⟨s, L', h1, h2, by omega⟩
    | none =>
      rw [hmatch] at hr
      dsimp only at hr
      cases hg : text.get? li with
      | some c =>
        rw [hg] at hr
        obtain ⟨s, L', h1, h2, h3⟩ := ih (li + 1) r hr
        exact ⟨s, L', h1, h2, by omega⟩
      | none => rw [hg] at hr; cases hr

/-- If the pattern matches at `i` and every earlier match ends at or
before `i`, the scan reports the range at `i`. -/
theorem execLoopSt_complete {m : List Char → Nat → Option Nat}
    (hm : MatcherOK m) (text : List Char) {i L : Nat}
    (hi : m text i = some L)
    (hdisj : ∀ j L', m text j = some L' → j < i → j + L' ≤ i) :
    ∀ fuel li, li ≤ i → i - li < fuel →
      (⟨i, i + L⟩ : Range) ∈ (execLoopSt m text fuel li).1 := by
  intro fuel
  induction fuel with
  | zero => intro li h1 h2; omega
  | succ fuel ih =>
    intro li hle hfuel
    simp only [execLoopSt]
    cases hmatch : m text li with
    | some L' =>
      dsimp only
      by_cases heq : li = i
      · subst heq
        rw [hi] at hmatch
        rw [Option.some.inj hmatch]
        exact List.mem_cons_self _ _
      · have hlt : li < i := by omega
        have hend := hdisj li L' hmatch hlt
        have hb := hm text li L' hmatch
        exact List.mem_cons_of_mem _ (ih (li + L') (by omega) (by omega))
    | none =>
      dsimp only
      cases hg : text.get? li with
      | some c =>
        have hne : li ≠ i := fun he => by rw [he, hi] at hmatch; cases hmatch
        exact ih (li + 1) (by omega) (by omega)
      | none =>
        have hlen := List.get?_eq_none.mp hg
        have hb := hm text i L hi
        omega

/-- `execAll` corollaries with the standard fuel. -/
theorem execAll_sound {m : List Char → Nat → Option Nat}
    {text : List Char} {r : Range} (hr : r ∈ execAll m text) :
    ∃ s L, r = ⟨s, s + L⟩ ∧ m text s = some L :=
  let ⟨s, L, h1, h2, _⟩ := execLoopSt_sound text (text.length + 2) 0 r hr
  ⟨s, L, h1, h2⟩

theorem execAll_complete {m : List Char → Nat → Option Nat}
    (hm : MatcherOK m) {text : List Char} {i L : Nat}
    (hi : m text i = some L)
    (hdisj : ∀ j L', m text j = some L' → j < i → j + L' ≤ i) :
    (⟨i, i + L⟩ : Range) ∈ execAll m text :=
  execLoopSt_complete hm text hi hdisj (text.length + 2) 0 (Nat.zero_le i)
    (by
      have hb := hm text i L hi
      omega)

/-! ## Facts about the replace scan -/

theorem replaceScan_eq_render (m : List Char → Nat → Option Nat)
    (f : List Char → Nat → List Char) (text : List Char) :
    ∀ fuel pos, replaceScan m f text fuel pos =
      renderWith f (decomposeScan m text fuel pos) := by
  intro fuel
  induction fuel with
  | zero => intro pos; rfl
  | succ fuel ih =>
    intro pos
    simp only [replaceScan, decomposeScan]
    cases hmatch : m text pos with
    | some L =>
      simp only [renderWith, List.map_cons, List.flatten_cons, pieceOut]
      rw [ih]
      rfl
    | none =>
      cases hg : text.get? pos with
      | some c =>
        simp only [renderWith, List.map_cons, List.flatten_cons, pieceOut]
        rw [ih]
        rfl
      | none => rfl

theorem stringReplace_eq_render (m : List Char → Nat → Option Nat)
    (f : List Char → Nat → List Char) (text : List Char) :
    stringReplace m f text = renderWith f (pieces m text) :=
  replaceScan_eq_render m f text (text.length + 2) 0

/-- The pieces of the decomposition spell out the scanned string. -/
theorem decomposeScan_src {m : List Char → Nat → Option Nat}
    (hm : MatcherOK m) (text : List Char) :
    ∀ fuel pos, text.length + 1 - pos < fuel →
      ((decomposeScan m text fuel pos).map pieceSrc).flatten =
        text.drop pos := by
  intro fuel
  induction fuel with
  | zero => intro pos h; omega
  | succ fuel ih =>
    intro pos hfuel
    simp only [decomposeScan]
    cases hmatch : m text pos with
    | some L =>
      have hb := hm text pos L hmatch
      simp only [List.map_cons, List.flatten_cons, pieceSrc]
      rw [ih (pos + L) (by omega)]
      rw [show text.drop (pos + L) = (text.drop pos).drop L by
        rw [List.drop_drop]]
      exact List.take_append_drop L (text.drop pos)
    | none =>
      cases hg : text.get? pos with
      | some c =>
        obtain ⟨hlt, hget⟩ := List.get?_eq_some.mp hg
        simp only [List.map_cons, List.flatten_cons, pieceSrc,
          List.singleton_append]
        rw [ih (pos + 1) (by omega)]
        rw [List.drop_eq_get_cons hlt, hget]
      | none =>
        have hlen := List.get?_eq_none.mp hg
        simp only [List.map_nil, List.flatten_nil]
        rw [List.drop_eq_nil_of_le hlen]

/-- Length of a replace pass whose callback preserves the length of every
match it is given. -/
theorem replaceScan_length {m : List Char → Nat → Option Nat}
    {f : List Char → Nat → List Char} (hm : MatcherOK m) (text : List Char)
    (hf : ∀ pos L, m text pos = some L →
      (f ((text.drop pos).take L) pos).length = L) :
    ∀ fuel pos, text.length + 1 - pos < fuel →
      (replaceScan m f text fuel pos).length = text.length - pos := by
  intro fuel
  induction fuel with
  | zero => intro pos h; omega
  | succ fuel ih =>
    intro pos hfuel
    simp only [replaceScan]
    cases hmatch : m text pos with
    | some L =>
      have hb := hm text pos L hmatch
      simp only [List.length_append]
      rw [hf pos L hmatch, ih (pos + L) (by omega)]
      omega
    | none =>
      cases hg : text.get? pos with
      | some c =>
        obtain ⟨hlt, -⟩ := List.get?_eq_some.mp hg
        simp only [List.length_cons]
        rw [ih (pos + 1) (by omega)]
        omega
      | none =>
        have hlen := List.get?_eq_none.mp hg
        simp only [List.length_nil]
        omega

/-- A replace pass relates input to output pointwise when the callback
relates every match to its replacement pointwise. -/
theorem replaceScan_forall₂ {m : List Char → Nat → Option Nat}
    {f : List Char → Nat → List Char} {R : Char → Char → Prop}
    (hm : MatcherOK m) (text : List Char) (hrefl : ∀ c, R c c)
    (hf : ∀ pos L, m text pos = some L →
      List.Forall₂ R ((text.drop pos).take L) (f ((text.drop pos).take L) pos)) :
    ∀ fuel pos, text.length + 1 - pos < fuel →
      List.Forall₂ R (text.drop pos) (replaceScan m f text fuel pos) := by
  intro fuel
  induction fuel with
  | zero => intro pos h; omega
  | succ fuel ih =>
    intro pos hfuel
    simp only [replaceScan]
    cases hmatch : m text pos with
    | some L =>
      dsimp only
      have hb := hm text pos L hmatch
      have h2 : List.Forall₂ R ((text.drop pos).drop L)
          (replaceScan m f text fuel (pos + L)) := by
        rw [List.drop_drop]
        exact ih (pos + L) (by omega)
      have h3 := List.rel_append (hf pos L hmatch) h2
      dsimp only at h3
      rw [List.take_append_drop] at h3
      exact h3
    | none =>
      dsimp only
      cases hg : text.get? pos with
      | some c =>
        dsimp only
        obtain ⟨hlt, hget⟩ := List.get?_eq_some.mp hg
        rw [List.drop_eq_get_cons hlt, hget]
        exact List.Forall₂.cons (hrefl c) (ih (pos + 1) (by omega))
      | none =>
        have hlen := List.get?_eq_none.mp hg
        rw [List.drop_eq_nil_of_le hlen]
        exact List.Forall₂.nil

/-- Every `mat` piece records an actual match of the matcher, together
with the exact slice of the scanned string it covers. -/
theorem decomposeScan_mat {m : List Char → Nat → Option Nat}
    (text : List Char) :
    ∀ fuel pos off s, Piece.mat off s ∈ decomposeScan m text fuel pos →
      ∃ L, m text off = some L ∧ s = (text.drop off).take L ∧ pos ≤ off := by
  intro fuel
  induction fuel with
  | zero => intro pos off s h; simp [decomposeScan] at h
  | succ fuel ih =>
    intro pos off s h
    simp only [decomposeScan] at h
    cases hmatch : m text pos with
    | some L =>
      rw [hmatch] at h
      dsimp only at h
      cases h with
      | head => exact ⟨L, hmatch, rfl, le_refl pos⟩
      | tail _ htail =>
        obtain ⟨L', h1, h2, h3⟩ := ih (pos + L) off s htail
        exact ⟨L', h1, h2, by omega⟩
    | none =>
      rw [hmatch] at h
      dsimp only at h
      cases hg : text.get? pos with
      | some c =>
        rw [hg] at h
        cases h with
        | tail _ htail =>
          obtain ⟨L', h1, h2, h3⟩ := ih (pos + 1) off s htail
          exact ⟨L', h1, h2, by omega⟩
      | none => rw [hg] at h; cases h

theorem pieces_mat {m : List Char → Nat → Option Nat} {text : List Char}
    {off : Nat} {s : List Char} (h : Piece.mat off s ∈ pieces m text) :
    ∃ L, m text off = some L ∧ s = (text.drop off).take L :=
  let ⟨L, h1, h2, _⟩ := decomposeScan_mat text (text.length + 2) 0 off s h
  ⟨L, h1, h2⟩

/-! ## Range membership -/

theorem indexInRanges_iff (i : Nat) (ranges : List Range) :
    indexInRanges i ranges = true ↔
      ∃ r ∈ ranges, r.start ≤ i ∧ i < r.stop := by
  simp [indexInRanges, List.any_eq_true, Bool.and_eq_true, decide_eq_true_eq]

/-! ## Reset of the shared patterns' scan state -/

theorem findDateRangesSt_state (text : List Char)
    (st : Nat × Nat × Nat × Nat) :
    (findDateRangesSt text st).2 = (0, 0, 0, 0) := by
  unfold findDateRangesSt
  dsimp only
  rw [execLoopSt_snd_eq_zero datePattern1MatchAt_ok text (text.length + 2)
      st.1 (by omega),
    execLoopSt_snd_eq_zero datePattern2MatchAt_ok text (text.length + 2)
      st.2.1 (by omega),
    execLoopSt_snd_eq_zero datePattern3MatchAt_ok text (text.length + 2)
      st.2.2.1 (by omega),
    execLoopSt_snd_eq_zero datePattern4MatchAt_ok text (text.length + 2)
      st.2.2.2 (by omega)]

theorem findDateRangesSt_fresh (text : List Char) :
    (findDateRangesSt text (0, 0, 0, 0)).1 = findDateRanges text := rfl

/-! ## The bare 4-digit pattern: soundness and completeness -/

theorem datePattern3_inv {text : List Char} {pos L : Nat}
    (h : datePattern3MatchAt text pos = some L) :
    L = 4 ∧ isBoundary text pos = true ∧
      4 ≤ takeDigits (text.drop pos) ∧ isBoundary text (pos + 4) = true := by
  simp only [datePattern3MatchAt] at h
  by_cases hc : (isBoundary text pos && 4 ≤ takeDigits (text.drop pos) &&
      isBoundary text (pos + 4)) = true
  · rw [if_pos hc] at h
    simp only [Bool.and_eq_true, decide_eq_true_eq] at hc
    exact ⟨(Option.some.inj h).symm, hc.1.1, hc.1.2, hc.2⟩
  · rw [if_neg hc] at h; cases h

theorem takeDigits_ge {s : List Char} {n : Nat}
    (h : ∀ k, k < n → ∃ c, s.get? k = some c ∧ isDigitChar c = true) :
    n ≤ takeDigits s := by
  induction n generalizing s with
  | zero => omega
  | succ n ih =>
    obtain ⟨c, hc, hd⟩ := h 0 (by omega)
    cases s with
    | nil => cases hc
    | cons a as =>
      have ha : a = c := by
        simpa using hc
      subst ha
      simp only [takeDigits, hd, if_true]
      have hrest : n ≤ takeDigits as := by
        apply ih
        intro k hk
        have := h (k + 1) (by omega)
        simpa using this
      omega

/-- A digit at an absolute position is a word character there. -/
theorem isWordCharAt_of_digit {text : List Char} {i : Nat} {c : Char}
    (hg : text.get? i = some c) (hd : isDigitChar c = true) :
    isWordCharAt text i = true := by
  unfold isWordCharAt
  rw [hg]
  exact isDigitChar_isWordChar hd

/-- Two distinct matches of the bare 4-digit pattern cannot overlap: the
later one needs a non-word character on its left, but every character of
the earlier match is a digit. -/
theorem datePattern3_disjoint {text : List Char} {i j L L' : Nat}
    (hi : datePattern3MatchAt text i = some L)
    (hj : datePattern3MatchAt text j = some L') (hlt : j < i) :
    j + L' ≤ i := by
  obtain ⟨hL, hbi, hdi, -⟩ := datePattern3_inv hi
  obtain ⟨hL', -, hdj, -⟩ := datePattern3_inv hj
  subst hL'
  by_contra hover
  have hii : i < j + 4 := by omega
  cases i with
  | zero => omega
  | succ i' =>
    have hk1 : i' - j < takeDigits (text.drop j) := by omega
    obtain ⟨c1, hg1, hd1⟩ := takeDigits_get (text.drop j) (i' - j) hk1
    rw [List.get?_drop] at hg1
    have hj1 : j + (i' - j) = i' := by omega
    rw [hj1] at hg1
    have hk2 : i' + 1 - j < takeDigits (text.drop j) := by omega
    obtain ⟨c2, hg2, hd2⟩ := takeDigits_get (text.drop j) (i' + 1 - j) hk2
    rw [List.get?_drop] at hg2
    have hj2 : j + (i' + 1 - j) = i' + 1 := by omega
    rw [hj2] at hg2
    have hw1 := isWordCharAt_of_digit hg1 hd1
    have hw2 := isWordCharAt_of_digit hg2 hd2
    simp only [isBoundary, prevIsWordChar, hw1, hw2, bne_self_eq_false] at hbi
    cases hbi

/-- Completeness: every boundary-delimited 4-digit run is reported as a
protected range. -/
theorem four_digit_run_mem_findDateRanges {text : List Char} {i : Nat}
    (hdig : ∀ k, k < 4 → ∃ c, text.get? (i + k) = some c ∧
      isDigitChar c = true)
    (hb1 : isBoundary text i = true) (hb2 : isBoundary text (i + 4) = true) :
    (⟨i, i + 4⟩ : Range) ∈ findDateRanges text := by
  have hmatch : datePattern3MatchAt text i = some 4 := by
    have htd : 4 ≤ takeDigits (text.drop i) := by
      apply takeDigits_ge
      intro k hk
      rw [List.get?_drop]
      exact hdig k hk
    simp only [datePattern3MatchAt]
    rw [if_pos]
    simp only [Bool.and_eq_true, decide_eq_true_eq]
    exact ⟨⟨hb1, htd⟩, hb2⟩
  have hmem : (⟨i, i + 4⟩ : Range) ∈ execAll datePattern3MatchAt text :=
    execAll_complete datePattern3MatchAt_ok hmatch
      (fun j L' hj hlt => datePattern3_disjoint hmatch hj hlt)
  unfold findDateRanges
  simp only [List.mem_append]
  tauto

/-! ## Facts about the replacement callbacks -/

theorem numRepl_of_inRanges {config : Config} {ranges : List Range}
    {s : List Char} {off : Nat} (h : indexInRanges off ranges = true) :
    numRepl config ranges s off = s := by
  unfold numRepl
  rw [if_pos h]

theorem numRepl_of_notInRanges {config : Config} {ranges : List Range}
    {s : List Char} {off : Nat} (h : indexInRanges off ranges = false) :
    numRepl config ranges s off =
      if config.hideMagnitude then bullets3 else maskAlnum s := by
  unfold numRepl
  rw [if_neg (by simp [h])]

theorem numRepl_length {config : Config} {ranges : List Range}
    {s : List Char} {off : Nat} (h : config.hideMagnitude = false) :
    (numRepl config ranges s off).length = s.length := by
  unfold numRepl
  split
  · rfl
  · rw [h]
    simp [maskAlnum]

theorem wordRepl_length {config : Config} {ranges : List Range}
    {s : List Char} {off : Nat} (h : config.hideMagnitude = false) :
    (wordRepl config ranges s off).length = s.length := by
  unfold wordRepl
  split
  · rfl
  · rw [h]
    simp

/-- Every character a case-insensitive word match covers is an ASCII
letter (the patterns' words are lowercase letters). -/
theorem matchWordCI_take_letters :
    ∀ (w s : List Char), w.all isLowerAZ = true → matchWordCI w s = true →
      ∀ c ∈ s.take w.length, isLetterAZ c = true := by
  intro w
  induction w with
  | nil => intro s _ _ c hc; simp at hc
  | cons p ps ih =>
    intro s hall hm c hc
    cases s with
    | nil => simp [matchWordCI] at hm
    | cons a as =>
      simp only [matchWordCI, Bool.and_eq_true, beq_iff_eq] at hm
      simp only [List.all_cons, Bool.and_eq_true] at hall
      simp only [List.length_cons, List.take_succ_cons, List.mem_cons] at hc
      rcases hc with rfl | hc
      · apply isLetterAZ_of_lowerChar
        rw [hm.1]
        exact hall.1
      · exact ih as hall.2 hm.2 c hc

theorem wordMatchAt_inv {text : List Char} {pos L : Nat}
    (h : wordMatchAt text pos = some L) :
    isBoundary text pos = true ∧ ∃ w ∈ numberWords,
      matchWordCI w (text.drop pos) = true ∧
      isBoundary text (pos + w.length) = true ∧ L = w.length := by
  simp only [wordMatchAt] at h
  by_cases hb : isBoundary text pos = true
  · rw [if_pos hb] at h
    refine ⟨hb, ?_⟩
    cases hf : numberWords.find? fun w =>
        matchWordCI w (text.drop pos) && isBoundary text (pos + w.length) with
    | none => rw [hf] at h; cases h
    | some w =>
      rw [hf] at h
      simp only [Option.map_some'] at h
      have hw := List.find?_some hf
      simp only [Bool.and_eq_true] at hw
      exact ⟨w, List.mem_of_find?_eq_some hf, hw.1, hw.2,
        (Option.some.inj h).symm⟩
  · rw [if_neg hb] at h; cases h

/-- The characters covered by a `wordRegex` match are ASCII letters. -/
theorem wordMatchAt_slice_letters {text : List Char} {pos L : Nat}
    (h : wordMatchAt text pos = some L) :
    ∀ c ∈ (text.drop pos).take L, isLetterAZ c = true := by
  obtain ⟨-, w, hmem, hci, -, rfl⟩ := wordMatchAt_inv h
  exact matchWordCI_take_letters w (text.drop pos)
    (numberWords_facts w hmem).2 hci

/-- On any string containing a letter the word pass's protected-range test
is false: the parameter it inspects is the captured word, which coerces to
`NaN`. -/
theorem capturedInRanges_eq_false {s : List Char} {ranges : List Range}
    (h : ∃ c ∈ s, isLetterAZ c = true) :
    capturedInRanges s ranges = false := by
  obtain ⟨c, hc, hl⟩ := h
  unfold capturedInRanges
  rw [if_neg]
  intro hcon
  simp only [Bool.and_eq_true, List.all_eq_true] at hcon
  have hd := hcon.1 c hc
  rw [isDigitChar_not_letter hd] at hl
  cases hl

/-- A word-pass match is always replaced (never handed back unchanged):
its masking decision is independent of the protected ranges. -/
theorem wordRepl_masks {config : Config} {ranges : List Range}
    {s : List Char} {off : Nat} (h : ∃ c ∈ s, isLetterAZ c = true) :
    wordRepl config ranges s off =
      if config.hideMagnitude then bullets3
      else List.replicate s.length bullet := by
  unfold wordRepl
  rw [capturedInRanges_eq_false h]
  simp

/-! ## Definitional reshaping of the engine -/

theorem transformString_def (text : List Char) (config : Config) :
    transformString text config = stringReplace wordMatchAt
      (wordRepl config (findDateRanges text)) (numPassResult text config) :=
  rfl

theorem numPassResult_render (text : List Char) (config : Config) :
    numPassResult text config =
      renderWith (numRepl config (findDateRanges text))
        (pieces numberWithSuffixMatchAt text) :=
  stringReplace_eq_render _ _ _

theorem transformString_render (text : List Char) (config : Config) :
    transformString text config =
      renderWith (wordRepl config (findDateRanges text))
        (pieces wordMatchAt (numPassResult text config)) :=
  stringReplace_eq_render _ _ _

/-! ## Length preservation in character-preserving mode -/

theorem numPassResult_length (text : List Char) {config : Config}
    (h : config.hideMagnitude = false) :
    (numPassResult text config).length = text.length := by
  unfold numPassResult stringReplace
  have hmain := @replaceScan_length _ (numRepl config (findDateRanges text))
    numberWithSuffixMatchAt_ok text ?_ (text.length + 2) 0 (by omega)
  · simpa using hmain
  · intro pos L hm
    rw [numRepl_length h]
    have hb := numberWithSuffixMatchAt_ok text pos L hm
    simp only [List.length_take, List.length_drop]
    omega

theorem wordPass_length (inter : List Char) {config : Config}
    {ranges : List Range} (h : config.hideMagnitude = false) :
    (stringReplace wordMatchAt (wordRepl config ranges) inter).length =
      inter.length := by
  unfold stringReplace
  have hmain := @replaceScan_length _ (wordRepl config ranges)
    wordMatchAt_ok inter ?_ (inter.length + 2) 0 (by omega)
  · simpa using hmain
  · intro pos L hm
    rw [wordRepl_length h]
    have hb := wordMatchAt_ok inter pos L hm
    simp only [List.length_take, List.length_drop]
    omega

theorem transformString_length (text : List Char) {config : Config}
    (h : config.hideMagnitude = false) :
    (transformString text config).length = text.length := by
  rw [transformString_def, wordPass_length _ h, numPassResult_length text h]

/-! ## Pointwise relation between input and output
(character-preserving mode) -/

/-- The output character is the input character, or the placeholder with
the input character alphanumeric. -/
def Masked (a b : Char) : Prop :=
  b = a ∨ (b = bullet ∧ isAlnumChar a = true)

theorem Masked_refl (c : Char) : Masked c c := Or.inl rfl

theorem Masked_trans {a b c : Char} (h1 : Masked a b) (h2 : Masked b c) :
    Masked a c := by
  rcases h2 with rfl | ⟨rfl, hb⟩
  · exact h1
  · rcases h1 with rfl | ⟨rfl, ha⟩
    · exact Or.inr ⟨rfl, hb⟩
    · exact Or.inr ⟨rfl, ha⟩

theorem forall₂_masked_maskAlnum (s : List Char) :
    List.Forall₂ Masked s (maskAlnum s) := by
  induction s with
  | nil => exact List.Forall₂.nil
  | cons c cs ih =>
    simp only [maskAlnum, List.map_cons]
    refine List.Forall₂.cons ?_ ih
    by_cases h : isAlnumChar c = true
    · rw [if_pos h]
      exact Or.inr ⟨rfl, h⟩
    · rw [if_neg h]
      exact Or.inl rfl

theorem forall₂_masked_replicate {s : List Char}
    (h : ∀ c ∈ s, isAlnumChar c = true) :
    List.Forall₂ Masked s (List.replicate s.length bullet) := by
  induction s with
  | nil => exact List.Forall₂.nil
  | cons c cs ih =>
    simp only [List.length_cons, List.replicate_succ]
    refine List.Forall₂.cons (Or.inr ⟨rfl, h c (by simp)⟩) ?_
    exact ih fun c hc => h c (by simp [hc])

theorem forall₂_masked_refl (s : List Char) : List.Forall₂ Masked s s := by
  induction s with
  | nil => exact List.Forall₂.nil
  | cons c cs ih => exact List.Forall₂.cons (Masked_refl c) ih

theorem forall₂_masked_trans :
    ∀ {as bs cs : List Char}, List.Forall₂ Masked as bs →
      List.Forall₂ Masked bs cs → List.Forall₂ Masked as cs := by
  intro as bs cs h1
  induction h1 generalizing cs with
  | nil => intro h2; cases h2; exact List.Forall₂.nil
  | cons hr hrest ih =>
    intro h2
    cases h2 with
    | cons hr2 hrest2 =>
      exact List.Forall₂.cons (Masked_trans hr hr2) (ih hrest2)

theorem forall₂_masked_numPass (text : List Char) {config : Config}
    (h : config.hideMagnitude = false) :
    List.Forall₂ Masked text (numPassResult text config) := by
  unfold numPassResult stringReplace
  have hmain := @replaceScan_forall₂ _
    (numRepl config (findDateRanges text)) Masked
    numberWithSuffixMatchAt_ok text Masked_refl ?_
    (text.length + 2) 0 (by omega)
  · simpa using hmain
  · intro pos L hm
    unfold numRepl
    split
    · exact forall₂_masked_refl _
    · rw [h]
      simp only [Bool.false_eq_true, if_false]
      exact forall₂_masked_maskAlnum _

theorem forall₂_masked_wordPass (inter : List Char) {config : Config}
    {ranges : List Range} (h : config.hideMagnitude = false) :
    List.Forall₂ Masked inter
      (stringReplace wordMatchAt (wordRepl config ranges) inter) := by
  unfold stringReplace
  have hmain := @replaceScan_forall₂ _
    (wordRepl config ranges) Masked wordMatchAt_ok inter
    Masked_refl ?_ (inter.length + 2) 0 (by omega)
  · simpa using hmain
  · intro pos L hm
    have hlet := wordMatchAt_slice_letters hm
    unfold wordRepl
    split
    · exact forall₂_masked_refl _
    · rw [h]
      simp only [Bool.false_eq_true, if_false]
      exact forall₂_masked_replicate
        fun c hc => isLetterAZ_isAlnumChar (hlet c hc)

theorem forall₂_masked_transform (text : List Char) (e : Bool) :
    List.Forall₂ Masked text (transformString text ⟨e, false⟩) := by
  rw [transformString_def]
  exact forall₂_masked_trans
    (@forall₂_masked_numPass text ⟨e, false⟩ rfl)
    (@forall₂_masked_wordPass (numPassResult text ⟨e, false⟩)
      ⟨e, false⟩ (findDateRanges text) rfl)

theorem forall₂_get? {R : Char → Char → Prop} :
    ∀ {as bs : List Char}, List.Forall₂ R as bs → ∀ i,
      (as.get? i = none ∧ bs.get? i = none) ∨
      ∃ a b, as.get? i = some a ∧ bs.get? i = some b ∧ R a b := by
  intro as bs h
  induction h with
  | nil => intro i; left; simp
  | cons hr hrest ih =>
    intro i
    cases i with
    | zero => exact Or.inr ⟨_, _, rfl, rfl, hr⟩
    | succ i => simpa using ih i

/-! ## No spelled-out number word can start inside a date match

The protected ranges are spans of month/`Day` letters, whitespace, digits
and punctuation.  A `wordRegex` match needs a word boundary on its left
and starts with a letter, which rules out every position of every date
match.  These lemmas make that precise. -/

theorem char_eq_of_get? {text : List Char} {i : Nat} {c c' : Char}
    (h1 : text.get? i = some c) (h2 : text.get? i = some c') : c' = c := by
  rw [h1] at h2
  exact (Option.some.inj h2).symm

theorem get?_at_drop {text : List Char} {base k : Nat} {c : Char}
    (h : (text.drop base).get? k = some c) : text.get? (base + k) = some c := by
  rw [List.get?_drop] at h
  exact h

theorem isWordCharAt_of_get {text : List Char} {i : Nat} {c : Char}
    (h : text.get? i = some c) (hw : isWordChar c = true) :
    isWordCharAt text i = true := by
  unfold isWordCharAt
  rw [h]
  exact hw

theorem isBoundary_false_of_word_chars {text : List Char} {i : Nat}
    (h1 : isWordCharAt text i = true) (h2 : isWordCharAt text (i + 1) = true) :
    isBoundary text (i + 1) = false := by
  unfold isBoundary
  have hp : prevIsWordChar text (i + 1) = isWordCharAt text i := rfl
  rw [hp, h1, h2]
  rfl

/-- A `wordRegex` match starts with an ASCII letter. -/
theorem wordMatchAt_first_char {text : List Char} {o L : Nat}
    (h : wordMatchAt text o = some L) :
    ∃ c, text.get? o = some c ∧ isLetterAZ c = true := by
  obtain ⟨-, w, hmem, hci, -, rfl⟩ := wordMatchAt_inv h
  have h3 := (numberWords_facts w hmem).1
  obtain ⟨cw, c, hw0, hc0, hlc⟩ := matchWordCI_get w (text.drop o) hci 0
    (by omega)
  rw [List.get?_drop] at hc0
  refine ⟨c, by simpa using hc0, ?_⟩
  apply isLetterAZ_of_lowerChar
  rw [hlc]
  have hmemw : cw ∈ w := List.get?_mem hw0
  have hall := (numberWords_facts w hmem).2
  rw [List.all_eq_true] at hall
  exact hall cw hmemw

/-- Inside a case-insensitively matched all-lowercase literal every
character is a letter (hence a word character). -/
theorem literal_char_letter {m : List Char} (hma : m.all isLowerAZ = true)
    {text : List Char} {s j : Nat} (hci : matchWordCI m (text.drop s) = true)
    (hj : j < m.length) :
    ∃ c, text.get? (s + j) = some c ∧ isLetterAZ c = true ∧
      isWordChar c = true := by
  obtain ⟨cw, c, hwj, hcj, hlc⟩ := matchWordCI_get m (text.drop s) hci j hj
  have hc : text.get? (s + j) = some c := get?_at_drop hcj
  have hlow : isLowerAZ cw = true := by
    rw [List.all_eq_true] at hma
    exact hma cw (List.get?_mem hwj)
  have hlet : isLetterAZ c = true := by
    apply isLetterAZ_of_lowerChar
    rw [hlc]
    exact hlow
  exact ⟨c, hc, hlet, isLetterAZ_isWordChar hlet⟩

/-- Core lemma: a date match that starts with an all-lowercase literal not
in `numberWords`, followed only by non-letters, admits no `wordRegex`
match anywhere in its span. -/
theorem head_word_no_overlap {text : List Char} {s Lr o L : Nat}
    {m : List Char} (hma : m.all isLowerAZ = true) (hm3 : 3 ≤ m.length)
    (hcim : matchWordCI m (text.drop s) = true)
    (_hmlen_lt : m.length < Lr)
    (hspace : ∃ c, text.get? (s + m.length) = some c ∧ isSpaceChar c = true)
    (hnolet : ∀ k, m.length ≤ k → k < Lr → ∀ c, text.get? (s + k) = some c →
      isLetterAZ c = false)
    (hnotword : ∀ w ∈ numberWords, w ≠ m)
    (hw : wordMatchAt text o = some L)
    (h1 : s ≤ o) (h2 : o < s + Lr) : False := by
  obtain ⟨hbo, w, hwmem, hciw, hbe, rfl⟩ := wordMatchAt_inv hw
  by_cases hzone : m.length ≤ o - s
  · -- the word would start on whitespace, a digit or punctuation
    obtain ⟨c, hc, hlet⟩ := wordMatchAt_first_char hw
    have hget : text.get? (s + (o - s)) = some c := by
      rw [show s + (o - s) = o by omega]
      exact hc
    have := hnolet (o - s) hzone (by omega) c hget
    rw [this] at hlet
    cases hlet
  · by_cases hstart : o = s
    · -- the word starts where the literal starts: compare the two
      rw [hstart] at hbe hciw
      have hwall := (numberWords_facts w hwmem).2
      have hw3 := (numberWords_facts w hwmem).1
      rcases Nat.lt_trichotomy w.length m.length with hlt | heq | hgt
      · -- shorter word: its trailing boundary would sit between two
        -- letters of the literal
        obtain ⟨c1, hc1, -, hwc1⟩ := literal_char_letter hma hcim
          (show w.length - 1 < m.length by omega)
        obtain ⟨c2, hc2, -, hwc2⟩ := literal_char_letter hma hcim hlt
        have hb := @isBoundary_false_of_word_chars text (s + (w.length - 1))
          (isWordCharAt_of_get hc1 hwc1)
          (by
            rw [show s + (w.length - 1) + 1 = s + w.length by omega]
            exact isWordCharAt_of_get hc2 hwc2)
        rw [show s + (w.length - 1) + 1 = s + w.length by omega] at hb
        rw [hb] at hbe
        cases hbe
      · -- equal length would make the word equal to the literal
        have hwm : w = m := by
          apply List.ext_get?
          intro n
          by_cases hn : n < w.length
          · obtain ⟨cw, c, hwn, hcn, hlcw⟩ :=
              matchWordCI_get w (text.drop s) hciw n hn
            obtain ⟨cm, c', hmn, hcn', hlcm⟩ :=
              matchWordCI_get m (text.drop s) hcim n (by omega)
            have hcc : c' = c := by
              rw [hcn] at hcn'
              exact (Option.some.inj hcn').symm
            rw [hwn, hmn]
            congr 1
            rw [← hlcw, ← hlcm, hcc]
          · have h1n : w.get? n = none := List.get?_eq_none.mpr (by omega)
            have h2n : m.get? n = none := List.get?_eq_none.mpr (by omega)
            rw [h1n, h2n]
        exact hnotword w hwmem hwm
      · -- longer word: its next character would have to match the
        -- whitespace that follows the literal
        obtain ⟨csp, hcs, hsp⟩ := hspace
        obtain ⟨cw, c, hwn, hcn, hlcw⟩ :=
          matchWordCI_get w (text.drop s) hciw m.length hgt
        have hc : text.get? (s + m.length) = some c := get?_at_drop hcn
        have hceq : c = csp := char_eq_of_get? hcs hc
        have hsp' : isSpaceChar c = true := by rw [hceq]; exact hsp
        have hlcw' : c = cw := by
          rw [lowerChar_of_not_upper (isSpaceChar_not_upper hsp')] at hlcw
          exact hlcw
        have hlow : isLowerAZ cw = true := by
          rw [List.all_eq_true] at hwall
          exact hwall cw (List.get?_mem hwn)
        rw [← hlcw'] at hlow
        rw [isSpaceChar_not_lower hsp'] at hlow
        cases hlow
    · -- the word would start in the middle of the literal, with no word
      -- boundary on its left
      have ho1 : 0 < o - s := by omega
      have hoin : o - s < m.length := by omega
      obtain ⟨c1, hc1, -, hwc1⟩ := literal_char_letter hma hcim
        (show o - s - 1 < m.length by omega)
      obtain ⟨c2, hc2, -, hwc2⟩ := literal_char_letter hma hcim hoin
      have hb := @isBoundary_false_of_word_chars text (s + (o - s - 1))
        (isWordCharAt_of_get hc1 hwc1)
        (by
          rw [show s + (o - s - 1) + 1 = s + (o - s) by omega]
          exact isWordCharAt_of_get hc2 hwc2)
      rw [show s + (o - s - 1) + 1 = o by omega] at hb
      rw [hb] at hbo
      cases hbo

theorem numberWords_ne_months :
    ∀ w ∈ numberWords, ∀ m ∈ monthNames, w ≠ m := by decide

theorem numberWords_ne_day : ∀ w ∈ numberWords, w ≠ s2l "day" := by decide

/-- Characters strictly after the month inside a pattern-1 match: first a
whitespace character, and letters nowhere. -/
theorem p1Tail_content {text : List Char} {s mlen Lr : Nat}
    (h : p1Tail text s mlen = some Lr) :
    mlen < Lr ∧
    (∃ c, text.get? (s + mlen) = some c ∧ isSpaceChar c = true) ∧
    (∀ k, mlen ≤ k → k < Lr → ∀ c, text.get? (s + k) = some c →
      isLetterAZ c = false) := by
  simp only [p1Tail] at h
  set ws := countSpace (text.drop (s + mlen)) with hws
  by_cases hw0 : ws = 0
  · rw [if_pos hw0] at h; cases h
  · rw [if_neg hw0] at h
    set d := takeDigits (text.drop (s + mlen + ws)) with hd
    by_cases hd0 : d = 0
    · rw [if_pos hd0] at h; cases h
    · rw [if_neg hd0] at h
      have hspace : ∃ c, text.get? (s + mlen) = some c ∧
          isSpaceChar c = true := by
        obtain ⟨c', hc', hs'⟩ := countSpace_get (text.drop (s + mlen)) 0
          (by omega)
        have hg := get?_at_drop hc'
        exact ⟨c', by simpa using hg, hs'⟩
      have hzone_ws : ∀ k, mlen ≤ k → k < mlen + ws → ∀ c,
          text.get? (s + k) = some c → isLetterAZ c = false := by
        intro k hk1 hk2 c hc
        obtain ⟨c', hc', hs'⟩ := countSpace_get (text.drop (s + mlen))
          (k - mlen) (by omega)
        have hg := get?_at_drop hc'
        rw [show s + mlen + (k - mlen) = s + k by omega] at hg
        rw [char_eq_of_get? hg hc]
        exact isSpaceChar_not_letter hs'
      have hzone_day : ∀ k, mlen + ws ≤ k → k < mlen + ws + min d 2 → ∀ c,
          text.get? (s + k) = some c → isLetterAZ c = false := by
        intro k hk1 hk2 c hc
        obtain ⟨c', hc', hdg⟩ := takeDigits_get (text.drop (s + mlen + ws))
          (k - mlen - ws) (by omega)
        have hg := get?_at_drop hc'
        rw [show s + mlen + ws + (k - mlen - ws) = s + k by omega] at hg
        rw [char_eq_of_get? hg hc]
        exact isDigitChar_not_letter hdg
      by_cases hcomma : (text.get? (s + (mlen + ws + min d 2)) ==
          some ',') = true
      · rw [if_pos hcomma] at h
        simp only [beq_iff_eq] at hcomma
        set a := mlen + ws + min d 2 with ha
        set ws2 := countSpace (text.drop (s + a + 1)) with hws2
        set y := takeDigits (text.drop (s + a + 1 + ws2)) with hy
        by_cases hy2 : 2 ≤ y
        · rw [if_pos hy2] at h
          have hL := Option.some.inj h
          refine ⟨by omega, hspace, ?_⟩
          intro k hk1 hk2 c hc
          by_cases hkws : k < mlen + ws
          · exact hzone_ws k hk1 hkws c hc
          · by_cases hkday : k < a
            · exact hzone_day k (by omega) (by omega) c hc
            · by_cases hka : k = a
              · subst hka
                rw [char_eq_of_get? hcomma hc]
                decide
              · by_cases hkws2 : k < a + 1 + ws2
                · obtain ⟨c', hc', hs'⟩ := countSpace_get
                    (text.drop (s + a + 1)) (k - a - 1) (by omega)
                  have hg := get?_at_drop hc'
                  rw [show s + a + 1 + (k - a - 1) = s + k by omega] at hg
                  rw [char_eq_of_get? hg hc]
                  exact isSpaceChar_not_letter hs'
                · obtain ⟨c', hc', hdg⟩ := takeDigits_get
                    (text.drop (s + a + 1 + ws2)) (k - (a + 1 + ws2))
                    (by omega)
                  have hg := get?_at_drop hc'
                  rw [show s + a + 1 + ws2 + (k - (a + 1 + ws2)) = s + k
                    by omega] at hg
                  rw [char_eq_of_get? hg hc]
                  exact isDigitChar_not_letter hdg
        · rw [if_neg hy2] at h
          have hL := Option.some.inj h
          refine ⟨by omega, hspace, ?_⟩
          intro k hk1 hk2 c hc
          by_cases hkws : k < mlen + ws
          · exact hzone_ws k hk1 hkws c hc
          · exact hzone_day k (by omega) (by omega) c hc
      · rw [if_neg hcomma] at h
        have hL := Option.some.inj h
        refine ⟨by omega, hspace, ?_⟩
        intro k hk1 hk2 c hc
        by_cases hkws : k < mlen + ws
        · exact hzone_ws k hk1 hkws c hc
        · exact hzone_day k (by omega) (by omega) c hc

theorem datePattern1_inv {text : List Char} {s Lr : Nat}
    (h : datePattern1MatchAt text s = some Lr) :
    ∃ m ∈ monthNames, matchWordCI m (text.drop s) = true ∧
      p1Tail text s m.length = some Lr := by
  simp only [datePattern1MatchAt] at h
  by_cases hb : isBoundary text s = true
  · rw [if_pos hb] at h
    obtain ⟨m, hmem, hm⟩ := List.exists_of_findSome?_eq_some h
    by_cases hci : matchWordCI m (text.drop s) = true
    · rw [if_pos hci] at hm
      exact ⟨m, hmem, hci, hm⟩
    · rw [if_neg hci] at hm; cases hm
  · rw [if_neg hb] at h; cases h

theorem p1_no_word {text : List Char} {s Lr o L : Nat}
    (hp : datePattern1MatchAt text s = some Lr)
    (hw : wordMatchAt text o = some L) (h1 : s ≤ o) (h2 : o < s + Lr) :
    False := by
  obtain ⟨m, hmem, hci, htail⟩ := datePattern1_inv hp
  obtain ⟨hlt, hspace, hnolet⟩ := p1Tail_content htail
  exact head_word_no_overlap (monthNames_facts m hmem).2
    (monthNames_facts m hmem).1 hci hlt hspace hnolet
    (fun w hwmem => numberWords_ne_months w hwmem m hmem) hw h1 h2

theorem datePattern4_inv {text : List Char} {s Lr : Nat}
    (h : datePattern4MatchAt text s = some Lr) :
    matchWordCI (s2l "day") (text.drop s) = true ∧ 3 < Lr ∧
    (∃ c, text.get? (s + 3) = some c ∧ isSpaceChar c = true) ∧
    (∀ k, 3 ≤ k → k < Lr → ∀ c, text.get? (s + k) = some c →
      isLetterAZ c = false) := by
  simp only [datePattern4MatchAt] at h
  by_cases hc0 : (isBoundary text s && matchWordCI (s2l "day")
      (text.drop s)) = true
  · rw [if_pos hc0] at h
    simp only [Bool.and_eq_true] at hc0
    set ws := countSpace (text.drop (s + 3)) with hws
    by_cases hw0 : ws = 0
    · rw [if_pos hw0] at h; cases h
    · rw [if_neg hw0] at h
      set d := takeDigits (text.drop (s + 3 + ws)) with hd
      by_cases hd0 : d = 0
      · rw [if_pos hd0] at h; cases h
      · rw [if_neg hd0] at h
        have hspace : ∃ c, text.get? (s + 3) = some c ∧
            isSpaceChar c = true := by
          obtain ⟨c', hc', hs'⟩ := countSpace_get (text.drop (s + 3)) 0
            (by omega)
          have hg := get?_at_drop hc'
          exact ⟨c', by simpa using hg, hs'⟩
        have hzone : ∀ (dd : Nat), dd ≤ d →
            ∀ k, 3 ≤ k → k < 3 + ws + dd → ∀ c,
            text.get? (s + k) = some c → isLetterAZ c = false := by
          intro dd hdd k hk1 hk2 c hc
          by_cases hkws : k < 3 + ws
          · obtain ⟨c', hc', hs'⟩ := countSpace_get (text.drop (s + 3))
              (k - 3) (by omega)
            have hg := get?_at_drop hc'
            rw [show s + 3 + (k - 3) = s + k by omega] at hg
            rw [char_eq_of_get? hg hc]
            exact isSpaceChar_not_letter hs'
          · obtain ⟨c', hc', hdg⟩ := takeDigits_get (text.drop (s + 3 + ws))
              (k - 3 - ws) (by omega)
            have hg := get?_at_drop hc'
            rw [show s + 3 + ws + (k - 3 - ws) = s + k by omega] at hg
            rw [char_eq_of_get? hg hc]
            exact isDigitChar_not_letter hdg
        by_cases hd1 : d = 1
        · rw [if_pos hd1] at h
          by_cases hb1 : isBoundary text (s + 3 + ws + 1) = true
          · rw [if_pos hb1] at h
            have hL := Option.some.inj h
            exact ⟨hc0.2, by omega, hspace, by
              rw [← hL]
              exact hzone 1 (by omega)⟩
          · rw [if_neg hb1] at h; cases h
        · rw [if_neg hd1] at h
          by_cases hb2 : isBoundary text (s + 3 + ws + 2) = true
          · rw [if_pos hb2] at h
            have hL := Option.some.inj h
            exact ⟨hc0.2, by omega, hspace, by
              rw [← hL]
              exact hzone 2 (by omega)⟩
          · rw [if_neg hb2] at h; cases h
  · rw [if_neg hc0] at h; cases h

theorem p4_no_word {text : List Char} {s Lr o L : Nat}
    (hp : datePattern4MatchAt text s = some Lr)
    (hw : wordMatchAt text o = some L) (h1 : s ≤ o) (h2 : o < s + Lr) :
    False := by
  obtain ⟨hci, hlt, hspace, hnolet⟩ := datePattern4_inv hp
  exact head_word_no_overlap
    (show (s2l "day").all isLowerAZ = true by decide) (by decide)
    hci hlt hspace hnolet numberWords_ne_day hw h1 h2

/-- No character of a pattern-2 match (`D{1,2}/D{1,2}(/D{2,4})?`) is a
letter. -/
theorem p2OptTail_content {text : List Char} {q extra : Nat}
    (h : p2OptTail text q = some extra) :
    ∀ k, k < extra → ∀ c, text.get? (q + k) = some c →
      isLetterAZ c = false := by
  simp only [p2OptTail] at h
  by_cases hs : (text.get? q == some '/') = true
  · rw [if_pos hs] at h
    simp only [beq_iff_eq] at hs
    have hdig : ∀ (cd : Nat), cd ≤ takeDigits (text.drop (q + 1)) →
        ∀ k, k < 1 + cd → ∀ c, text.get? (q + k) = some c →
        isLetterAZ c = false := by
      intro cd hcd k hk c hc
      by_cases hk0 : k = 0
      · subst hk0
        rw [show q + 0 = q by omega] at hc
        rw [char_eq_of_get? hs hc]
        decide
      · obtain ⟨c', hc', hdg⟩ := takeDigits_get (text.drop (q + 1))
          (k - 1) (by omega)
        have hg := get?_at_drop hc'
        rw [show q + 1 + (k - 1) = q + k by omega] at hg
        rw [char_eq_of_get? hg hc]
        exact isDigitChar_not_letter hdg
    by_cases h4 : (4 ≤ takeDigits (text.drop (q + 1)) &&
        isBoundary text (q + 1 + 4)) = true
    · rw [if_pos h4] at h
      have hL := Option.some.inj h
      simp only [Bool.and_eq_true, decide_eq_true_eq] at h4
      rw [← hL]
      exact hdig 4 h4.1
    · rw [if_neg h4] at h
      by_cases h3 : (3 ≤ takeDigits (text.drop (q + 1)) &&
          isBoundary text (q + 1 + 3)) = true
      · rw [if_pos h3] at h
        have hL := Option.some.inj h
        simp only [Bool.and_eq_true, decide_eq_true_eq] at h3
        rw [← hL]
        exact hdig 3 h3.1
      · rw [if_neg h3] at h
        by_cases h2 : (2 ≤ takeDigits (text.drop (q + 1)) &&
            isBoundary text (q + 1 + 2)) = true
        · rw [if_pos h2] at h
          have hL := Option.some.inj h
          simp only [Bool.and_eq_true, decide_eq_true_eq] at h2
          rw [← hL]
          exact hdig 2 h2.1
        · rw [if_neg h2] at h; cases h
  · rw [if_neg hs] at h; cases h

theorem p2SecondPart_content {text : List Char} {p2abs b len2 : Nat}
    (hdb : b ≤ takeDigits (text.drop p2abs))
    (h : p2SecondPart text p2abs b = some len2) :
    ∀ k, k < len2 → ∀ c, text.get? (p2abs + k) = some c →
      isLetterAZ c = false := by
  simp only [p2SecondPart] at h
  have hdigse : ∀ k, k < b → ∀ c, text.get? (p2abs + k) = some c →
      isLetterAZ c = false := by
    intro k hk c hc
    obtain ⟨c', hc', hdg⟩ := takeDigits_get (text.drop p2abs) k (by omega)
    have hg := get?_at_drop hc'
    rw [char_eq_of_get? hg hc]
    exact isDigitChar_not_letter hdg
  cases ho : p2OptTail text (p2abs + b) with
  | some extra =>
    rw [ho] at h
    have hL := Option.some.inj h
    intro k hk c hc
    by_cases hkb : k < b
    · exact hdigse k hkb c hc
    · have := p2OptTail_content ho (k - b) (by omega) c
      rw [show p2abs + b + (k - b) = p2abs + k by omega] at this
      exact this hc
  | none =>
    rw [ho] at h
    by_cases hbd : isBoundary text (p2abs + b) = true
    · rw [if_pos hbd] at h
      have hL := Option.some.inj h
      intro k hk c hc
      exact hdigse k (by omega) c hc
    · rw [if_neg hbd] at h; cases h

theorem p2AfterSlash_content {text : List Char} {p2abs len2 : Nat}
    (h : p2AfterSlash text p2abs = some len2) :
    ∀ k, k < len2 → ∀ c, text.get? (p2abs + k) = some c →
      isLetterAZ c = false := by
  simp only [p2AfterSlash] at h
  by_cases h0 : takeDigits (text.drop p2abs) = 0
  · rw [if_pos h0] at h; cases h
  · rw [if_neg h0] at h
    by_cases h2 : 2 ≤ takeDigits (text.drop p2abs)
    · rw [if_pos h2] at h
      cases hs : p2SecondPart text p2abs 2 with
      | some v =>
        rw [hs] at h
        have hL := Option.some.inj h
        rw [← hL]
        exact p2SecondPart_content (by omega) hs
      | none =>
        rw [hs] at h
        exact p2SecondPart_content (by omega) h
    · rw [if_neg h2] at h
      exact p2SecondPart_content (by omega) h

theorem p2Head_content {text : List Char} {pos a Lr : Nat}
    (hda : a ≤ takeDigits (text.drop pos))
    (h : p2Head text pos a = some Lr) :
    ∀ k, k < Lr → ∀ c, text.get? (pos + k) = some c →
      isLetterAZ c = false := by
  simp only [p2Head] at h
  by_cases hs : (text.get? (pos + a) == some '/') = true
  · rw [if_pos hs] at h
    simp only [beq_iff_eq] at hs
    cases ha : p2AfterSlash text (pos + a + 1) with
    | some len2 =>
      rw [ha] at h
      have hL := Option.some.inj h
      intro k hk c hc
      by_cases hka : k < a
      · obtain ⟨c', hc', hdg⟩ := takeDigits_get (text.drop pos) k (by omega)
        have hg := get?_at_drop hc'
        rw [char_eq_of_get? hg hc]
        exact isDigitChar_not_letter hdg
      · by_cases hkeq : k = a
        · subst hkeq
          rw [char_eq_of_get? hs hc]
          decide
        · have := p2AfterSlash_content ha (k - a - 1) (by omega) c
          rw [show pos + a + 1 + (k - a - 1) = pos + k by omega] at this
          exact this hc
    | none => rw [ha] at h; cases h
  · rw [if_neg hs] at h; cases h

theorem p2_content {text : List Char} {s Lr : Nat}
    (h : datePattern2MatchAt text s = some Lr) :
    ∀ k, k < Lr → ∀ c, text.get? (s + k) = some c →
      isLetterAZ c = false := by
  simp only [datePattern2MatchAt] at h
  by_cases hb : isBoundary text s = true
  · rw [if_pos hb] at h
    by_cases h0 : takeDigits (text.drop s) = 0
    · rw [if_pos h0] at h; cases h
    · rw [if_neg h0] at h
      by_cases h2 : 2 ≤ takeDigits (text.drop s)
      · rw [if_pos h2] at h
        cases hh : p2Head text s 2 with
        | some v =>
          rw [hh] at h
          have hL := Option.some.inj h
          rw [← hL]
          exact p2Head_content (by omega) hh
        | none =>
          rw [hh] at h
          exact p2Head_content (by omega) h
      · rw [if_neg h2] at h
        exact p2Head_content (by omega) h
  · rw [if_neg hb] at h; cases h

theorem p2_no_word {text : List Char} {s Lr o L : Nat}
    (hp : datePattern2MatchAt text s = some Lr)
    (hw : wordMatchAt text o = some L) (h1 : s ≤ o) (h2 : o < s + Lr) :
    False := by
  obtain ⟨c, hc, hlet⟩ := wordMatchAt_first_char hw
  have hget : text.get? (s + (o - s)) = some c := by
    rw [show s + (o - s) = o by omega]
    exact hc
  have := p2_content hp (o - s) (by omega) c hget
  rw [this] at hlet
  cases hlet

theorem p3_no_word {text : List Char} {s Lr o L : Nat}
    (hp : datePattern3MatchAt text s = some Lr)
    (hw : wordMatchAt text o = some L) (h1 : s ≤ o) (h2 : o < s + Lr) :
    False := by
  obtain ⟨hL4, -, hdig, -⟩ := datePattern3_inv hp
  subst hL4
  obtain ⟨c, hc, hlet⟩ := wordMatchAt_first_char hw
  obtain ⟨c', hc', hd'⟩ := takeDigits_get (text.drop s) (o - s) (by omega)
  have hg := get?_at_drop hc'
  rw [show s + (o - s) = o by omega] at hg
  rw [char_eq_of_get? hg hc] at hlet
  rw [isDigitChar_not_letter hd'] at hlet
  cases hlet

/-- The vacuity theorem: no `wordRegex` match ever starts inside a
protected range of the same string. -/
theorem wordMatch_not_in_ranges {text : List Char} {o L : Nat}
    (hw : wordMatchAt text o = some L) :
    indexInRanges o (findDateRanges text) = false := by
  by_contra hcon
  have htrue : indexInRanges o (findDateRanges text) = true := by
    revert hcon
    cases indexInRanges o (findDateRanges text) <;> simp
  obtain ⟨r, hr, hro1, hro2⟩ := (indexInRanges_iff o _).mp htrue
  unfold findDateRanges at hr
  simp only [List.mem_append] at hr
  rcases hr with ((h1 | h2) | h3) | h4
  · obtain ⟨s, Lr, hreq, hms⟩ := execAll_sound h1
    subst hreq
    exact p1_no_word hms hw hro1 hro2
  · obtain ⟨s, Lr, hreq, hms⟩ := execAll_sound h2
    subst hreq
    exact p2_no_word hms hw hro1 hro2
  · obtain ⟨s, Lr, hreq, hms⟩ := execAll_sound h3
    subst hreq
    exact p3_no_word hms hw hro1 hro2
  · obtain ⟨s, Lr, hreq, hms⟩ := execAll_sound h4
    subst hreq
    exact p4_no_word hms hw hro1 hro2

/-! ## Positional alignment of a length-preserving replace pass -/

/-- A position covered by no match is copied through unchanged. -/
theorem replaceScan_get?_uncovered {m : List Char → Nat → Option Nat}
    {f : List Char → Nat → List Char} (hm : MatcherOK m) (text : List Char)
    (hf : ∀ pos L, m text pos = some L →
      (f ((text.drop pos).take L) pos).length = L) :
    ∀ fuel pos k, text.length + 1 - pos < fuel →
      (∀ p L, m text p = some L → ¬(p ≤ pos + k ∧ pos + k < p + L)) →
      (replaceScan m f text fuel pos).get? k = text.get? (pos + k) := by
  intro fuel
  induction fuel with
  | zero => intro pos k h _; omega
  | succ fuel ih =>
    intro pos k hfuel hnc
    simp only [replaceScan]
    cases hmatch : m text pos with
    | some L =>
      dsimp only
      have hb := hm text pos L hmatch
      have hkL : L ≤ k := by
        by_contra hlt
        exact hnc pos L hmatch ⟨by omega, by omega⟩
      rw [List.get?_append_right (by rw [hf pos L hmatch]; omega)]
      rw [hf pos L hmatch]
      rw [ih (pos + L) (k - L) (by omega) ?_]
      · congr 1
        omega
      · intro p L' hp hcover
        exact hnc p L' hp ⟨by omega, by omega⟩
    | none =>
      dsimp only
      cases hg : text.get? pos with
      | some c =>
        dsimp only
        cases k with
        | zero =>
          simp only [List.get?_cons_zero, Nat.add_zero, hg]
        | succ k =>
          rw [List.get?_cons_succ]
          obtain ⟨hlt, -⟩ := List.get?_eq_some.mp hg
          have hrec := ih (pos + 1) k (by omega) (fun p L' hp hcover =>
            hnc p L' hp ⟨by omega, by omega⟩)
          rw [hrec]
          congr 1
          omega
      | none =>
        dsimp only
        have hlen := List.get?_eq_none.mp hg
        have h1 : text.get? (pos + k) = none := List.get?_eq_none.mpr (by omega)
        have h2 : ([] : List Char).get? k = none := List.get?_eq_none.mpr (by simp)
        rw [h1, h2]

/-- A position covered by a match whose earlier siblings all end before it
receives the corresponding character of the callback's replacement. -/
theorem replaceScan_get?_of_match {m : List Char → Nat → Option Nat}
    {f : List Char → Nat → List Char} (hm : MatcherOK m) (text : List Char)
    (hf : ∀ pos L, m text pos = some L →
      (f ((text.drop pos).take L) pos).length = L)
    {i L : Nat} (hi : m text i = some L)
    (hdisj : ∀ j L', m text j = some L' → j < i → j + L' ≤ i) :
    ∀ fuel pos, pos ≤ i → text.length + 1 - pos < fuel → ∀ j, j < L →
      (replaceScan m f text fuel pos).get? (i - pos + j) =
        (f ((text.drop i).take L) i).get? j := by
  intro fuel
  induction fuel with
  | zero => intro pos hpos h j hj; omega
  | succ fuel ih =>
    intro pos hpos hfuel j hj
    simp only [replaceScan]
    cases hmatch : m text pos with
    | some L' =>
      dsimp only
      have hb := hm text pos L' hmatch
      by_cases heq : pos = i
      · subst heq
        rw [hi] at hmatch
        have hE : L' = L := (Option.some.inj hmatch).symm
        rw [hE]
        rw [show pos - pos + j = j by omega]
        rw [List.get?_append (by rw [hf pos L hi]; omega)]
      · have hlt : pos < i := by omega
        have hend := hdisj pos L' hmatch hlt
        rw [List.get?_append_right (by rw [hf pos L' hmatch]; omega)]
        rw [hf pos L' hmatch]
        rw [show i - pos + j - L' = i - (pos + L') + j by omega]
        exact ih (pos + L') (by omega) (by omega) j hj
    | none =>
      dsimp only
      have hne : pos ≠ i := fun he => by rw [he, hi] at hmatch; cases hmatch
      have hlt : pos < i := by omega
      have hbi := hm text i L hi
      cases hg : text.get? pos with
      | some c =>
        dsimp only
        rw [show i - pos + j = (i - (pos + 1) + j) + 1 by omega]
        rw [List.get?_cons_succ]
        exact ih (pos + 1) (by omega) (by omega) j hj
      | none =>
        have hlen := List.get?_eq_none.mp hg
        omega

/-! ## Content of a numeric match -/

theorem sepGroupsF_content : ∀ (fuel : Nat) (s : List Char) (k : Nat),
    k < sepGroupsF fuel s → ∃ c, s.get? k = some c ∧
      (c = '.' ∨ c = ',' ∨ isDigitChar c = true) := by
  intro fuel
  induction fuel with
  | zero => intro s k hk; simp [sepGroupsF] at hk
  | succ fuel ih =>
    intro s k hk
    cases s with
    | nil => simp [sepGroupsF] at hk
    | cons c cs =>
      simp only [sepGroupsF] at hk
      by_cases hsep : (c == '.' || c == ',') = true
      · rw [if_pos hsep] at hk
        by_cases hd0 : takeDigits cs = 0
        · rw [if_pos hd0] at hk
          omega
        · rw [if_neg hd0] at hk
          cases k with
          | zero =>
            refine ⟨c, rfl, ?_⟩
            simp only [Bool.or_eq_true, beq_iff_eq] at hsep
            tauto
          | succ k =>
            by_cases hkd : k < takeDigits cs
            · obtain ⟨c', hc', hdg⟩ := takeDigits_get cs k hkd
              exact ⟨c', hc', Or.inr (Or.inr hdg)⟩
            · obtain ⟨c', hc', hy⟩ := ih (cs.drop (takeDigits cs))
                (k - takeDigits cs) (by omega)
              rw [List.get?_drop] at hc'
              rw [show takeDigits cs + (k - takeDigits cs) = k by omega]
                at hc'
              exact ⟨c', hc', hy⟩
      · rw [if_neg hsep] at hk
        omega

theorem sepGroups_content {s : List Char} {k : Nat} (hk : k < sepGroups s) :
    ∃ c, s.get? k = some c ∧ (c = '.' ∨ c = ',' ∨ isDigitChar c = true) :=
  sepGroupsF_content s.length s k hk

theorem sepGroupsF_last : ∀ (fuel : Nat) (s : List Char),
    sepGroupsF fuel s ≠ 0 →
      ∃ c, s.get? (sepGroupsF fuel s - 1) = some c ∧
        isDigitChar c = true := by
  intro fuel
  induction fuel with
  | zero => intro s h; simp [sepGroupsF] at h
  | succ fuel ih =>
    intro s h
    cases s with
    | nil => simp [sepGroupsF] at h
    | cons c cs =>
      by_cases hsep : (c == '.' || c == ',') = true
      · by_cases hd0 : takeDigits cs = 0
        · exfalso
          apply h
          simp only [sepGroupsF]
          rw [if_pos hsep, if_pos hd0]
        · have hval : sepGroupsF (fuel + 1) (c :: cs) =
              1 + takeDigits cs + sepGroupsF fuel (cs.drop (takeDigits cs)) := by
            simp only [sepGroupsF]
            rw [if_pos hsep, if_neg hd0]
          rw [hval]
          by_cases hR : sepGroupsF fuel (cs.drop (takeDigits cs)) = 0
          · rw [hR]
            obtain ⟨c', hc', hdg⟩ := takeDigits_get cs (takeDigits cs - 1)
              (by omega)
            refine ⟨c', ?_, hdg⟩
            rw [show 1 + takeDigits cs + 0 - 1 = (takeDigits cs - 1) + 1
              by omega]
            rw [List.get?_cons_succ]
            exact hc'
          · obtain ⟨c', hc', hdg⟩ := ih (cs.drop (takeDigits cs)) hR
            rw [List.get?_drop] at hc'
            refine ⟨c', ?_, hdg⟩
            rw [show 1 + takeDigits cs +
                sepGroupsF fuel (cs.drop (takeDigits cs)) - 1 =
                (takeDigits cs + (sepGroupsF fuel (cs.drop (takeDigits cs)) - 1))
                + 1 by omega]
            rw [List.get?_cons_succ]
            exact hc'
      · exfalso
        apply h
        simp only [sepGroupsF]
        rw [if_neg hsep]

theorem sepGroups_last {s : List Char} (h : sepGroups s ≠ 0) :
    ∃ c, s.get? (sepGroups s - 1) = some c ∧ isDigitChar c = true :=
  sepGroupsF_last s.length s h

theorem numberWithSuffixMatchAt_inv {text : List Char} {p L : Nat}
    (h : numberWithSuffixMatchAt text p = some L) :
    1 ≤ takeDigits (text.drop p) ∧
    L = takeDigits (text.drop p) +
      sepGroups (text.drop (p + takeDigits (text.drop p))) +
      suffixAt text (p + takeDigits (text.drop p) +
        sepGroups (text.drop (p + takeDigits (text.drop p)))) := by
  simp only [numberWithSuffixMatchAt] at h
  by_cases hd : takeDigits (text.drop p) = 0
  · rw [if_pos hd] at h; cases h
  · rw [if_neg hd] at h
    exact ⟨by omega, (Option.some.inj h).symm⟩

theorem suffixAt_inv {text : List Char} {A : Nat} (h : suffixAt text A ≠ 0) :
    ∃ cq, text.get? (A + countSpace (text.drop A)) = some cq ∧
      isSuffixLetter cq = true ∧
      ((suffixAt text A = countSpace (text.drop A) + 2 ∧
        text.get? (A + countSpace (text.drop A) + 1) = some 'n' ∧
        isBoundary text (A + countSpace (text.drop A) + 2) = true) ∨
       (suffixAt text A = countSpace (text.drop A) + 1 ∧
        isBoundary text (A + countSpace (text.drop A) + 1) = true)) := by
  simp only [suffixAt] at h ⊢
  cases hg : text.get? (A + countSpace (text.drop A)) with
  | none => rw [hg] at h; simp at h
  | some cq =>
    rw [hg] at h
    dsimp only at h ⊢
    by_cases hs : isSuffixLetter cq = true
    · rw [if_pos hs] at h ⊢
      by_cases hn : (text.get? (A + countSpace (text.drop A) + 1) ==
          some 'n' && isBoundary text (A + countSpace (text.drop A) + 2)) =
          true
      · rw [if_pos hn] at h ⊢
        simp only [Bool.and_eq_true, beq_iff_eq] at hn
        exact ⟨cq, rfl, hs, Or.inl ⟨rfl, hn.1, hn.2⟩⟩
      · rw [if_neg hn] at h ⊢
        by_cases hb : isBoundary text (A + countSpace (text.drop A) + 1) =
            true
        · rw [if_pos hb] at h ⊢
          exact ⟨cq, rfl, hs, Or.inr ⟨rfl, hb⟩⟩
        · rw [if_neg hb] at h
          omega
    · rw [if_neg hs] at h
      omega

/-- Where can a numeric match contain an ASCII letter?  Only as its
magnitude-suffix letter (or the optional `n` after it), which is preceded
by a digit or whitespace and followed (1 or 2 characters later) by a word
boundary.  All other characters of the match are digits, separators or
whitespace. -/
theorem numMatch_letter_pos {text : List Char} {p L x : Nat} {c : Char}
    (h : numberWithSuffixMatchAt text p = some L)
    (hx1 : p ≤ x) (hx2 : x < p + L)
    (hc : text.get? x = some c) (hlet : isLetterAZ c = true) :
    ∃ q b cprev, (x = q ∨ x = q + 1) ∧ 1 ≤ q ∧
      text.get? (q - 1) = some cprev ∧
      (isDigitChar cprev = true ∨ isSpaceChar cprev = true) ∧
      (b = q + 1 ∨ b = q + 2) ∧ x < b ∧ isBoundary text b = true := by
  obtain ⟨hd1, hL⟩ := numberWithSuffixMatchAt_inv h
  set d := takeDigits (text.drop p) with hd_def
  set g := sepGroups (text.drop (p + d)) with hg_def
  by_cases hx_d : x < p + d
  · obtain ⟨c', hc', hdg⟩ := takeDigits_get (text.drop p) (x - p)
      (by omega)
    have hgc := get?_at_drop hc'
    rw [show p + (x - p) = x by omega] at hgc
    rw [char_eq_of_get? hgc hc] at hlet
    rw [isDigitChar_not_letter hdg] at hlet
    cases hlet
  · by_cases hx_g : x < p + d + g
    · obtain ⟨c', hc', hy⟩ := @sepGroups_content
        (text.drop (p + d)) (x - (p + d)) (by omega)
      have hgc := get?_at_drop hc'
      rw [show p + d + (x - (p + d)) = x by omega] at hgc
      rw [char_eq_of_get? hgc hc] at hlet
      rcases hy with rfl | rfl | hdg
      · exact absurd hlet (by decide)
      · exact absurd hlet (by decide)
      · rw [isDigitChar_not_letter hdg] at hlet
        cases hlet
    · have hsufne : suffixAt text (p + d + g) ≠ 0 := by omega
      set ws := countSpace (text.drop (p + d + g)) with hws_def
      obtain ⟨cq, hgq, hsl, hcase⟩ := suffixAt_inv hsufne
      rw [← hws_def] at hgq hcase
      by_cases hx_ws : x < p + d + g + ws
      · obtain ⟨c', hc', hsp⟩ := countSpace_get (text.drop (p + d + g))
          (x - (p + d + g)) (by rw [← hws_def]; omega)
        have hgc := get?_at_drop hc'
        rw [show p + d + g + (x - (p + d + g)) = x by omega] at hgc
        rw [char_eq_of_get? hgc hc] at hlet
        rw [isSpaceChar_not_letter hsp] at hlet
        cases hlet
      · have hprev : ∃ cprev,
            text.get? (p + d + g + ws - 1) = some cprev ∧
            (isDigitChar cprev = true ∨ isSpaceChar cprev = true) := by
          by_cases hws0 : ws = 0
          · by_cases hg0 : g = 0
            · obtain ⟨c', hc', hdg⟩ := takeDigits_get (text.drop p)
                (d - 1) (by omega)
              have hgc := get?_at_drop hc'
              rw [show p + (d - 1) = p + d + g + ws - 1 by omega] at hgc
              exact ⟨c', hgc, Or.inl hdg⟩
            · obtain ⟨c', hc', hdg⟩ := @sepGroups_last
                (text.drop (p + d)) (by rw [← hg_def]; omega)
              rw [← hg_def] at hc'
              have hgc := get?_at_drop hc'
              rw [show p + d + (g - 1) = p + d + g + ws - 1 by omega] at hgc
              exact ⟨c', hgc, Or.inl hdg⟩
          · obtain ⟨c', hc', hsp⟩ := countSpace_get (text.drop (p + d + g))
              (ws - 1) (by rw [← hws_def]; omega)
            have hgc := get?_at_drop hc'
            rw [show p + d + g + (ws - 1) = p + d + g + ws - 1 by omega]
              at hgc
            exact ⟨c', hgc, Or.inr hsp⟩
        obtain ⟨cprev, hcp, hcpd⟩ := hprev
        rcases hcase with ⟨hsufeq, hn, hb⟩ | ⟨hsufeq, hb⟩
        · exact ⟨p + d + g + ws, p + d + g + ws + 2, cprev, by omega,
            by omega, hcp, hcpd, Or.inr rfl, by omega, hb⟩
        · exact ⟨p + d + g + ws, p + d + g + ws + 1, cprev, by omega,
            by omega, hcp, hcpd, Or.inl rfl, by omega, hb⟩

/-! ## A word match survives the numeric pass (character-preserving mode)

The numeric pass can mask a letter only as a magnitude suffix, and a
suffix letter demands a digit or space before it and a word boundary
right after it — both impossible inside a spelled-out number word, whose
letters sit between word characters.  So the characters of a word match
pass through the numeric pass untouched, and the word pass finds the
same match in the intermediate string at the same offset. -/

theorem word_letters {text : List Char} {o Lw : Nat}
    (hw : wordMatchAt text o = some Lw) :
    ∀ j, j < Lw → ∃ c, text.get? (o + j) = some c ∧
      isLetterAZ c = true ∧ isWordChar c = true := by
  obtain ⟨-, w, hmem, hci, -, rfl⟩ := wordMatchAt_inv hw
  intro j hj
  exact literal_char_letter (numberWords_facts w hmem).2 hci hj

theorem wordMatchAt_length3 {text : List Char} {o Lw : Nat}
    (hw : wordMatchAt text o = some Lw) : 3 ≤ Lw := by
  obtain ⟨-, w, hmem, -, -, rfl⟩ := wordMatchAt_inv hw
  exact (numberWords_facts w hmem).1

theorem word_no_interior_boundary {text : List Char} {o Lw : Nat}
    (hw : wordMatchAt text o = some Lw) :
    ∀ b, o < b → b < o + Lw → isBoundary text b = false := by
  intro b hb1 hb2
  obtain ⟨c1, hc1, -, hwc1⟩ := word_letters hw (b - o - 1) (by omega)
  obtain ⟨c2, hc2, -, hwc2⟩ := word_letters hw (b - o) (by omega)
  have hb := @isBoundary_false_of_word_chars text (o + (b - o - 1))
    (isWordCharAt_of_get hc1 hwc1)
    (by
      rw [show o + (b - o - 1) + 1 = o + (b - o) by omega]
      exact isWordCharAt_of_get hc2 hwc2)
  rw [show o + (b - o - 1) + 1 = b by omega] at hb
  exact hb

theorem word_prev_nonword {text : List Char} {o Lw : Nat}
    (hw : wordMatchAt text o = some Lw) :
    prevIsWordChar text o = false := by
  obtain ⟨hbo, -⟩ := wordMatchAt_inv hw
  obtain ⟨c, hcg, -, hwc⟩ := word_letters hw 0 (by
    have := wordMatchAt_length3 hw
    omega)
  rw [Nat.add_zero] at hcg
  have hcur : isWordCharAt text o = true := isWordCharAt_of_get hcg hwc
  unfold isBoundary at hbo
  rw [hcur] at hbo
  cases hpv : prevIsWordChar text o
  · rfl
  · rw [hpv] at hbo
    simp at hbo

theorem word_after_nonword {text : List Char} {o Lw : Nat}
    (hw : wordMatchAt text o = some Lw) :
    isWordCharAt text (o + Lw) = false := by
  obtain ⟨-, w, hmem, hci, hbe, hLw⟩ := wordMatchAt_inv hw
  subst hLw
  obtain ⟨c, hcg, -, hwc⟩ := word_letters hw (w.length - 1) (by
    have := (numberWords_facts w hmem).1
    omega)
  have hprev : prevIsWordChar text (o + w.length) =
      isWordCharAt text (o + w.length - 1) := by
    rw [show o + w.length = (o + w.length - 1) + 1 by
      have := (numberWords_facts w hmem).1
      omega]
    rfl
  rw [show o + (w.length - 1) = o + w.length - 1 by
    have := (numberWords_facts w hmem).1
    omega] at hcg
  have hcur : isWordCharAt text (o + w.length - 1) = true :=
    isWordCharAt_of_get hcg hwc
  unfold isBoundary at hbe
  rw [hprev, hcur] at hbe
  cases hat : isWordCharAt text (o + w.length)
  · rfl
  · rw [hat] at hbe
    simp at hbe

theorem wordMatchAt_disjoint {t : List Char} {i j Li Lj : Nat}
    (hi : wordMatchAt t i = some Li) (hj : wordMatchAt t j = some Lj)
    (hlt : j < i) : j + Lj ≤ i := by
  by_contra hover
  have hb := word_no_interior_boundary hj i hlt (by omega)
  obtain ⟨hbi, -⟩ := wordMatchAt_inv hi
  rw [hb] at hbi
  cases hbi

/-- The numeric pass leaves non-alphanumeric positions untouched (its
per-character replacement only rewrites `[0-9a-zA-Z]`). -/
theorem numPass_nonword_eq {text : List Char} {e : Bool} {i : Nat}
    (hnw : isWordCharAt text i = false) :
    (numPassResult text ⟨e, false⟩).get? i = text.get? i := by
  have hf := @forall₂_masked_numPass text ⟨e, false⟩ rfl
  rcases forall₂_get? hf i with ⟨h1, h2⟩ | ⟨a, b, h1, h2, hm⟩
  · rw [h1, h2]
  · rcases hm with rfl | ⟨rfl, ha⟩
    · rw [h1, h2]
    · unfold isWordCharAt at hnw
      rw [h1] at hnw
      dsimp only at hnw
      have hwc : isWordChar a = true := by simp [isWordChar, ha]
      rw [hwc] at hnw
      cases hnw

/-- The numeric pass cannot touch any character of a word match: a masked
letter would have to be a magnitude suffix, whose neighbouring digit,
whitespace or word boundary cannot occur inside the word. -/
theorem numPass_char_eq_at_word {text : List Char} {o Lw : Nat} (e : Bool)
    (hw : wordMatchAt text o = some Lw) :
    ∀ j, j < Lw → (numPassResult text ⟨e, false⟩).get? (o + j) =
      text.get? (o + j) := by
  intro j hj
  have hLw3 := wordMatchAt_length3 hw
  unfold numPassResult stringReplace
  have hflen : ∀ pos L, numberWithSuffixMatchAt text pos = some L →
      ((numRepl ⟨e, false⟩ (findDateRanges text))
        ((text.drop pos).take L) pos).length = L := by
    intro pos L hm
    rw [numRepl_length rfl]
    have hb := numberWithSuffixMatchAt_ok text pos L hm
    simp only [List.length_take, List.length_drop]
    omega
  have huncov := replaceScan_get?_uncovered numberWithSuffixMatchAt_ok text
    hflen (text.length + 2) 0 (o + j) (by omega) ?_
  · rw [huncov, Nat.zero_add]
  · intro p L hp hcover
    obtain ⟨hcov1, hcov2⟩ := hcover
    obtain ⟨c, hcg, hclet, -⟩ := word_letters hw j hj
    obtain ⟨q, b, cprev, hxq, hq1, hcprev, hcpd, hbq, hxb, hbnd⟩ :=
      numMatch_letter_pos hp (by omega) (by omega) hcg hclet
    by_cases hbin : b < o + Lw
    · have hfalse := word_no_interior_boundary hw b (by omega) hbin
      rw [hfalse] at hbnd
      cases hbnd
    · have hq_range : o ≤ q - 1 ∧ q - 1 < o + Lw := by omega
      obtain ⟨c', hc', hlet', -⟩ := word_letters hw (q - 1 - o) (by omega)
      rw [show o + (q - 1 - o) = q - 1 by omega] at hc'
      have hcc := char_eq_of_get? hc' hcprev
      rcases hcpd with hdg | hsp
      · rw [← hcc] at hlet'
        rw [isDigitChar_not_letter hdg] at hlet'
        cases hlet'
      · rw [← hcc] at hlet'
        rw [isSpaceChar_not_letter hsp] at hlet'
        cases hlet'

theorem matchWordCI_of_get? :
    ∀ (w s s' : List Char), (∀ k, k < w.length → s'.get? k = s.get? k) →
      matchWordCI w s = true → matchWordCI w s' = true := by
  intro w
  induction w with
  | nil => intro s s' _ _; rfl
  | cons p ps ih =>
    intro s s' hk hm
    cases s with
    | nil => simp [matchWordCI] at hm
    | cons a as =>
      cases s' with
      | nil =>
        have h0 := hk 0 (by simp)
        simp at h0
      | cons a' as' =>
        simp only [matchWordCI, Bool.and_eq_true, beq_iff_eq] at hm ⊢
        have h0 := hk 0 (by simp)
        simp only [List.get?_cons_zero, Option.some.injEq] at h0
        refine ⟨by rw [h0]; exact hm.1, ?_⟩
        refine ih as as' ?_ hm.2
        intro k hkk
        have := hk (k + 1) (by simp only [List.length_cons]; omega)
        simpa using this

theorem find?_transfer {α : Type} {p q : α → Bool} :
    ∀ {l : List α} {w : α}, l.find? p = some w → q w = true →
      (∀ x ∈ l, q x = true → p x = true) → l.find? q = some w := by
  intro l
  induction l with
  | nil => intro w hf _ _; simp at hf
  | cons a as ih =>
    intro w hf hq himp
    rw [List.find?_cons] at hf ⊢
    cases hpa : p a with
    | true =>
      rw [hpa] at hf
      dsimp only at hf
      have ha : a = w := Option.some.inj hf
      subst ha
      rw [hq]
    | false =>
      rw [hpa] at hf
      dsimp only at hf
      have hqa : q a = false := by
        cases hqa : q a
        · rfl
        · rw [himp a (by simp) hqa] at hpa
          cases hpa
      rw [hqa]
      exact ih hf hq fun x hx => himp x (by simp [hx])

/-- Survival: in character-preserving mode the word pass finds each word
match of the original text at the same offset in the numeric pass's
output. -/
theorem wordMatchAt_numPass {text : List Char} {o Lw : Nat} (e : Bool)
    (hw : wordMatchAt text o = some Lw) :
    wordMatchAt (numPassResult text ⟨e, false⟩) o = some Lw := by
  have hLw3 := wordMatchAt_length3 hw
  obtain ⟨hbo, -⟩ := wordMatchAt_inv hw
  have hw' := hw
  unfold wordMatchAt at hw'
  rw [if_pos hbo] at hw'
  cases hfp : numberWords.find? (fun w' =>
      matchWordCI w' (text.drop o) && isBoundary text (o + w'.length)) with
  | none => rw [hfp] at hw'; cases hw'
  | some w2 =>
    rw [hfp] at hw'
    simp only [Option.map_some'] at hw'
    have hLw : Lw = w2.length := (Option.some.inj hw').symm
    have hpw2 := List.find?_some hfp
    simp only [Bool.and_eq_true] at hpw2
    have hchar : ∀ i, o ≤ i → i < o + Lw →
        (numPassResult text ⟨e, false⟩).get? i = text.get? i := by
      intro i h1 h2
      have := numPass_char_eq_at_word e hw (i - o) (by omega)
      rw [show o + (i - o) = i by omega] at this
      exact this
    have haftnw := word_after_nonword hw
    have hwceq : ∀ i, o ≤ i → i ≤ o + Lw →
        isWordCharAt (numPassResult text ⟨e, false⟩) i =
          isWordCharAt text i := by
      intro i h1 h2
      by_cases hil : i < o + Lw
      · unfold isWordCharAt
        rw [hchar i h1 hil]
      · have hieq : i = o + Lw := by omega
        subst hieq
        unfold isWordCharAt
        rw [numPass_nonword_eq haftnw]
    have hbeq : ∀ j, 1 ≤ j → j ≤ Lw →
        isBoundary (numPassResult text ⟨e, false⟩) (o + j) =
          isBoundary text (o + j) := by
      intro j h1 h2
      unfold isBoundary
      have hp : prevIsWordChar (numPassResult text ⟨e, false⟩) (o + j) =
          prevIsWordChar text (o + j) := by
        rw [show o + j = (o + j - 1) + 1 by omega]
        show isWordCharAt (numPassResult text ⟨e, false⟩) (o + j - 1) =
          isWordCharAt text (o + j - 1)
        exact hwceq (o + j - 1) (by omega) (by omega)
      rw [hp, hwceq (o + j) (by omega) (by omega)]
    have hboI : isBoundary (numPassResult text ⟨e, false⟩) o = true := by
      unfold isBoundary
      have hcur : isWordCharAt (numPassResult text ⟨e, false⟩) o =
          isWordCharAt text o := hwceq o (le_refl o) (by omega)
      have hprevI : prevIsWordChar (numPassResult text ⟨e, false⟩) o =
          false := by
        cases o with
        | zero => rfl
        | succ o' =>
          show isWordCharAt (numPassResult text ⟨e, false⟩) o' = false
          have hpnw := word_prev_nonword hw
          have hpnw' : isWordCharAt text o' = false := hpnw
          unfold isWordCharAt
          rw [numPass_nonword_eq hpnw']
          exact hpnw'
      rw [hprevI, hcur]
      unfold isBoundary at hbo
      have hprevT : prevIsWordChar text o = false := word_prev_nonword hw
      rw [hprevT] at hbo
      exact hbo
    unfold wordMatchAt
    rw [if_pos hboI]
    have hfind : numberWords.find? (fun w' =>
        matchWordCI w' ((numPassResult text ⟨e, false⟩).drop o) &&
          isBoundary (numPassResult text ⟨e, false⟩) (o + w'.length)) =
        some w2 := by
      apply find?_transfer hfp
      · simp only [Bool.and_eq_true]
        constructor
        · apply matchWordCI_of_get? w2 (text.drop o) _ ?_ hpw2.1
          intro k hk
          rw [List.get?_drop, List.get?_drop]
          exact hchar (o + k) (by omega) (by omega)
        · rw [hbeq w2.length (by omega) (by omega)]
          exact hpw2.2
      · intro w' hmem' hq'
        simp only [Bool.and_eq_true] at hq' ⊢
        by_cases hlen : w'.length ≤ Lw
        · have hw'3 := (numberWords_facts w' hmem').1
          constructor
          · apply matchWordCI_of_get? w'
              ((numPassResult text ⟨e, false⟩).drop o) _ ?_ hq'.1
            intro k hk
            rw [List.get?_drop, List.get?_drop]
            exact (hchar (o + k) (by omega) (by omega)).symm
          · rw [← hbeq w'.length (by omega) (by omega)]
            exact hq'.2
        · exfalso
          obtain ⟨cw, cc, hw'k, hck, hlc⟩ := matchWordCI_get w'
            ((numPassResult text ⟨e, false⟩).drop o) hq'.1 Lw (by omega)
          rw [List.get?_drop] at hck
          rw [numPass_nonword_eq haftnw] at hck
          have hlow : isLowerAZ cw = true := by
            have hall := (numberWords_facts w' hmem').2
            rw [List.all_eq_true] at hall
            exact hall cw (List.get?_mem hw'k)
          have hlet : isLetterAZ cc = true := by
            apply isLetterAZ_of_lowerChar
            rw [hlc]
            exact hlow
          have hwca : isWordCharAt text (o + Lw) = true :=
            isWordCharAt_of_get hck (isLetterAZ_isWordChar hlet)
          rw [hwca] at haftnw
          cases haftnw
    rw [hfind]
    exact hw'

/-- In character-preserving mode every position of a word match of the
original text carries the placeholder in the engine's output. -/
theorem word_masked_in_output {text : List Char} {o Lw : Nat} (e : Bool)
    (hw : wordMatchAt text o = some Lw) :
    ∀ j, j < Lw → (transformString text ⟨e, false⟩).get? (o + j) =
      some bullet := by
  intro j hj
  have hsurv := wordMatchAt_numPass e hw
  rw [transformString_def]
  unfold stringReplace
  have hflen : ∀ pos L,
      wordMatchAt (numPassResult text ⟨e, false⟩) pos = some L →
      ((wordRepl ⟨e, false⟩ (findDateRanges text))
        (((numPassResult text ⟨e, false⟩).drop pos).take L) pos).length =
        L := by
    intro pos L hm
    rw [wordRepl_length rfl]
    have hb := wordMatchAt_ok _ pos L hm
    simp only [List.length_take, List.length_drop]
    omega
  have halign := replaceScan_get?_of_match wordMatchAt_ok
    (numPassResult text ⟨e, false⟩) hflen hsurv
    (fun j' L' hj' hlt => wordMatchAt_disjoint hsurv hj' hlt)
    ((numPassResult text ⟨e, false⟩).length + 2) 0 (by omega) (by omega)
    j hj
  rw [show o - 0 + j = o + j by omega] at halign
  rw [halign]
  have hb := wordMatchAt_ok _ o Lw hsurv
  have hlen : (((numPassResult text ⟨e, false⟩).drop o).take Lw).length =
      Lw := by
    simp only [List.length_take, List.length_drop]
    omega
  have hlets := wordMatchAt_slice_letters hsurv
  have hex : ∃ c ∈ ((numPassResult text ⟨e, false⟩).drop o).take Lw,
      isLetterAZ c = true := by
    have hne : ((numPassResult text ⟨e, false⟩).drop o).take Lw ≠ [] := by
      intro hnil
      rw [hnil] at hlen
      simp at hlen
      omega
    obtain ⟨c, hc⟩ := List.exists_mem_of_ne_nil _ hne
    exact ⟨c, hc, hlets c hc⟩
  rw [wordRepl_masks hex]
  rw [show (if (⟨e, false⟩ : Config).hideMagnitude then bullets3
    else List.replicate (((numPassResult text ⟨e, false⟩).drop o).take
      Lw).length bullet) = List.replicate (((numPassResult text
      ⟨e, false⟩).drop o).take Lw).length bullet from rfl]
  rw [hlen, List.get?_eq_getElem?, List.getElem?_replicate, if_pos hj]

/-! # Claim theorems -/

/-- C1: the protected ranges computed once from the original text still
gate the word-number pass correctly after the numeric pass has run.
First conjunct: no spelled-out number word ever starts inside a protected
range of the original text (date matches consist of month/`Day` letters,
whitespace, digits and punctuation), so the claim's "inside a protected
range ⟹ left unchanged" direction can never be violated — there is no
such word.  Second conjunct: in character-preserving mode every word
match of the ORIGINAL text (all of which start outside every protected
range, by the first conjunct) is masked position by position in the final
output, even though the numeric pass ran first — its alterations cannot
touch or displace a word match.  Third conjunct: in both modes, the word
pass masks every match it finds over the numeric pass's output.  The
remaining conjuncts check the spec's regression example in both modes. -/
theorem C1_cross_pass_gating :
    (∀ (text : List Char) (o L : Nat), wordMatchAt text o = some L →
      indexInRanges o (findDateRanges text) = false) ∧
    (∀ (text : List Char) (e : Bool) (o L : Nat),
      wordMatchAt text o = some L → ∀ j, j < L →
      (transformString text ⟨e, false⟩).get? (o + j) = some bullet) ∧
    (∀ (text : List Char) (e h : Bool) (off : Nat) (s : List Char),
      Piece.mat off s ∈ pieces wordMatchAt (numPassResult text ⟨e, h⟩) →
      wordRepl ⟨e, h⟩ (findDateRanges text) s off =
        if h then bullets3 else List.replicate s.length bullet) ∧
    transformString (s2l "Nov 22, 2025 had twenty visitors") ⟨true, false⟩ =
      s2l "Nov 22, 2025 had •••••• visitors" ∧
    transformString (s2l "Nov 22, 2025 had twenty visitors") ⟨true, true⟩ =
      s2l "Nov 22, 2025 had ••• visitors" := by
  refine ⟨fun _ _ _ hw => wordMatch_not_in_ranges hw,
    fun _ e _ _ hw j hj => word_masked_in_output e hw j hj,
    ?_, by decide, by decide⟩
  intro text e h off s hmem
  obtain ⟨L, hm, hs⟩ := pieces_mat hmem
  have hb := wordMatchAt_ok _ off L hm
  have hlen : s.length = L := by
    rw [hs]
    simp only [List.length_take, List.length_drop]
    omega
  have hletters := wordMatchAt_slice_letters hm
  have hex : ∃ c ∈ s, isLetterAZ c = true := by
    have hne : s ≠ [] := by
      intro hnil
      rw [hnil] at hlen
      simp at hlen
      omega
    obtain ⟨c, hc⟩ := List.exists_mem_of_ne_nil s hne
    exact ⟨c, hc, hletters c (by rw [← hs]; exact hc)⟩
  rw [wordRepl_masks hex]

/-- C1 witness: in `"123456 Nov 22 ten"` the word `ten` (a word match at
original offset 14, outside the only protected range `[7, 13)`) is fully
masked in the character-preserving output even though the numeric pass
already rewrote the leading digits. -/
theorem C1_cross_pass_gating_witness :
    wordMatchAt (s2l "123456 Nov 22 ten") 14 = some 3 ∧
    indexInRanges 14 (findDateRanges (s2l "123456 Nov 22 ten")) = false ∧
    (transformString (s2l "123456 Nov 22 ten") ⟨true, false⟩).get? (14 + 0)
      = some bullet :=
  ⟨by decide, C1_cross_pass_gating.1 (s2l "123456 Nov 22 ten") 14 3
      (by decide),
    C1_cross_pass_gating.2.1 (s2l "123456 Nov 22 ten") true 14 3
      (by decide) 0 (by decide)⟩

/-- C2, counterexample: the claim `mask(text, {enabled:false, …}) === text`
with "the enabled check is performed inside the engine entry point itself"
fails on the code: `transformString` never consults `config.enabled`, so
calling it directly with a disabled configuration still masks.  On input
`"5"` with `{enabled: false, hideMagnitude: false}` it returns `"•"`, not
`"5"`. -/
theorem C2_disabled_passthrough_counterexample :
    transformString (s2l "5") ⟨false, false⟩ ≠ s2l "5" ∧
    transformString (s2l "5") ⟨false, false⟩ = s2l "•" :=
  ⟨by decide, by decide⟩

/-- C2, amended: the disabled passthrough holds at the call sites, not
inside the engine.  Both callers gate on `config.enabled` before invoking
`transformString` (the content script's `initialize` returns early,
src/unnamed/part_000 lines 210–212; the injected canvas script installs no
overrides, src/injection.js lines 37–39), so with `enabled: false` the
text reaching the page is the unchanged input. -/
theorem C2_disabled_passthrough_amended :
    ∀ (text : List Char) (h : Bool),
      applyMaskingAtCallSite text ⟨false, h⟩ = text := by
  intro text h
  rfl

/-- C3: in character-preserving mode (`hideMagnitude: false`) the engine's
output has exactly the length of its input, for every input and either
value of `enabled`. -/
theorem C3_length_invariant :
    ∀ (text : List Char) (e : Bool),
      (transformString text ⟨e, false⟩).length = text.length :=
  fun text _ => transformString_length text rfl

/-- C5: the numeric matcher consumes a trailing magnitude letter only when
a word boundary follows it.  In `"Revenue: 10M"` the single numeric match
is `10M` (offsets 9–12), masked as one unit; in `"100 this"` the match is
just `100` and the `t` of `this` is untouched. -/
theorem C5_suffix_boundary :
    execAll numberWithSuffixMatchAt (s2l "Revenue: 10M") = [⟨9, 12⟩] ∧
    execAll numberWithSuffixMatchAt (s2l "100 this") = [⟨0, 3⟩] ∧
    transformString (s2l "Revenue: 10M") ⟨true, false⟩ =
      s2l "Revenue: •••" ∧
    transformString (s2l "100 this") ⟨true, false⟩ = s2l "••• this" :=
  ⟨by decide, by decide, by decide, by decide⟩

/-- C6: in hide-magnitude mode every masked match becomes exactly the
3-character placeholder `•••`.  The engine's two passes render the match
decomposition of their inputs (last two conjuncts); every numeric match
outside the protected ranges renders as `bullets3`, and every word match
renders as `bullets3` (the word pass masks each match it finds — its
range test, fed the captured word, never succeeds). -/
theorem C6_fixed_width (text : List Char) (e : Bool) :
    (∀ (off : Nat) (s : List Char),
      Piece.mat off s ∈ pieces numberWithSuffixMatchAt text →
      indexInRanges off (findDateRanges text) = false →
      numRepl ⟨e, true⟩ (findDateRanges text) s off = bullets3) ∧
    (∀ (off : Nat) (s : List Char),
      Piece.mat off s ∈ pieces wordMatchAt (numPassResult text ⟨e, true⟩) →
      wordRepl ⟨e, true⟩ (findDateRanges text) s off = bullets3) ∧
    numPassResult text ⟨e, true⟩ =
      renderWith (numRepl ⟨e, true⟩ (findDateRanges text))
        (pieces numberWithSuffixMatchAt text) ∧
    transformString text ⟨e, true⟩ =
      renderWith (wordRepl ⟨e, true⟩ (findDateRanges text))
        (pieces wordMatchAt (numPassResult text ⟨e, true⟩)) := by
  refine ⟨?_, ?_, numPassResult_render text _, transformString_render text _⟩
  · intro off s _ hout
    rw [numRepl_of_notInRanges hout]
    rfl
  · intro off s hmem
    obtain ⟨L, hm, hs⟩ := pieces_mat hmem
    have hlen : s.length = L := by
      have hb := wordMatchAt_ok _ off L hm
      rw [hs]
      simp only [List.length_take, List.length_drop]
      omega
    have hletters := wordMatchAt_slice_letters hm
    have hex : ∃ c ∈ s, isLetterAZ c = true := by
      have hne : s ≠ [] := by
        intro hnil
        rw [hnil] at hlen
        have := (wordMatchAt_ok _ off L hm).1
        simp at hlen
        omega
      obtain ⟨c, hc⟩ := List.exists_mem_of_ne_nil s hne
      exact ⟨c, hc, hletters c (by rw [← hs]; exact hc)⟩
    rw [wordRepl_masks hex]
    rfl

/-- C6 witness: in hide-magnitude mode the numeric match `25` of the text
`"25"` (no protected ranges) is replaced by exactly `•••`. -/
theorem C6_fixed_width_witness :
    (Piece.mat 0 (s2l "25") ∈ pieces numberWithSuffixMatchAt (s2l "25")) ∧
    indexInRanges 0 (findDateRanges (s2l "25")) = false ∧
    numRepl ⟨true, true⟩ (findDateRanges (s2l "25")) (s2l "25") 0 =
      bullets3 :=
  ⟨by decide, by decide,
    (C6_fixed_width (s2l "25") true).1 0 (s2l "25") (by decide) (by decide)⟩

/-- C7: `indexInRanges(offset, ranges)` is true exactly when some range
satisfies `start ≤ offset < end` (first conjunct); the numeric pass's
masking decision replaces the whole match or keeps the whole match,
depending only on whether the match's start offset is in the ranges
(second conjunct), and on nothing else about the offsets (third
conjunct) — a match extending into a range it does not start in is
treated like any other unprotected match, never split. -/
theorem C7_contains_start_only :
    (∀ (i : Nat) (ranges : List Range),
      indexInRanges i ranges = true ↔
        ∃ r ∈ ranges, r.start ≤ i ∧ i < r.stop) ∧
    (∀ (config : Config) (ranges : List Range) (s : List Char) (off : Nat),
      numRepl config ranges s off =
        if indexInRanges off ranges then s
        else if config.hideMagnitude then bullets3 else maskAlnum s) ∧
    (∀ (config : Config) (ranges ranges2 : List Range) (s : List Char)
        (off off2 : Nat),
      indexInRanges off ranges = indexInRanges off2 ranges2 →
      numRepl config ranges s off = numRepl config ranges2 s off2) := by
  refine ⟨indexInRanges_iff, fun config ranges s off => rfl, ?_⟩
  intro config ranges ranges2 s off off2 heq
  unfold numRepl
  rw [heq]

/-- C7 witness: the extensionality conjunct applied at concrete inputs in
which both offsets are outside their ranges. -/
theorem C7_contains_start_only_witness :
    indexInRanges 5 [⟨0, 2⟩] = indexInRanges 0 [] ∧
    numRepl ⟨true, false⟩ [⟨0, 2⟩] (s2l "99") 5 =
      numRepl ⟨true, false⟩ [] (s2l "99") 0 :=
  ⟨by decide, C7_contains_start_only.2.2 ⟨true, false⟩ [⟨0, 2⟩] []
    (s2l "99") 5 0 (by decide)⟩

/-- C8: every word-boundary-delimited run of exactly four digits — any
four digits, not only plausible years — is reported as a protected range,
and a standalone `"9999"` is left unmasked under every configuration. -/
theorem C8_any_four_digits_protected :
    (∀ (text : List Char) (i : Nat),
      (∀ k, k < 4 → ∃ c, text.get? (i + k) = some c ∧
        isDigitChar c = true) →
      isBoundary text i = true → isBoundary text (i + 4) = true →
      (⟨i, i + 4⟩ : Range) ∈ findDateRanges text) ∧
    (∀ e h : Bool, transformString (s2l "9999") ⟨e, h⟩ = s2l "9999") :=
  ⟨fun _ _ hd h1 h2 => four_digit_run_mem_findDateRanges hd h1 h2,
    by decide⟩

/-- C8 witness: the arbitrary 4-digit run `9999` inside `"a 9999 b"` is
protected. -/
theorem C8_any_four_digits_protected_witness :
    (⟨2, 6⟩ : Range) ∈ findDateRanges (s2l "a 9999 b") :=
  C8_any_four_digits_protected.1 (s2l "a 9999 b") 2
    (fun k hk => by
      interval_cases k <;> exact ⟨'9', by decide, by decide⟩)
    (by decide) (by decide)

/-- C9: the date-range detector leaves each shared global pattern's
`lastIndex` at 0 — whatever state the four patterns start in — because
the `while (exec) … null` loop always runs to the failing `exec` that
resets the position.  Hence a second invocation on the same string starts
from a fresh state and reports exactly the ranges of the first, and a
fresh invocation computes `findDateRanges`. -/
theorem C9_repeatable_scan :
    ∀ (text : List Char) (st : Nat × Nat × Nat × Nat),
      (findDateRangesSt text st).2 = (0, 0, 0, 0) ∧
      (findDateRangesSt text ((findDateRangesSt text st).2)).1 =
        findDateRanges text ∧
      (findDateRangesSt text (0, 0, 0, 0)).1 = findDateRanges text := by
  intro text st
  refine ⟨findDateRangesSt_state text st, ?_, findDateRangesSt_fresh text⟩
  rw [findDateRangesSt_state text st]
  exact findDateRangesSt_fresh text

/-- C10: character-preserving mode is a per-position substitution: the
output has the input's length, and at every position the output character
is the input character or the placeholder `•`, the latter only over an
ASCII alphanumeric input character; non-alphanumeric characters appear
unchanged at their original positions. -/
theorem C10_per_position_substitution :
    ∀ (text : List Char) (i : Nat),
      (transformString text ⟨true, false⟩).length = text.length ∧
      ((transformString text ⟨true, false⟩).get? i = text.get? i ∨
        ((transformString text ⟨true, false⟩).get? i = some bullet ∧
          ∃ c, text.get? i = some c ∧ isAlnumChar c = true)) := by
  intro text i
  have hf := forall₂_masked_transform text true
  refine ⟨(List.Forall₂.length_eq hf).symm, ?_⟩
  rcases forall₂_get? hf i with ⟨h1, h2⟩ | ⟨a, b, h1, h2, hm⟩
  · left
    rw [h1, h2]
  · rcases hm with rfl | ⟨rfl, ha⟩
    · left
      rw [h1, h2]
    · right
      exact ⟨h2, a, h1, ha⟩

/-- C4: dates are never masked.  The spec's example is preserved in both
modes (first two conjuncts).  In general, the numeric pass hands back
unchanged every match whose start offset is inside a protected range
(third conjunct), and the word pass never meets a match starting inside a
protected range at all: no spelled-out number word can begin inside any
date match of the same string (fourth conjunct), so no word-number match
with a protected start offset exists to be altered. -/
theorem C4_date_preservation :
    transformString (s2l "Nov 22, 2025") ⟨true, false⟩ =
      s2l "Nov 22, 2025" ∧
    transformString (s2l "Nov 22, 2025") ⟨true, true⟩ =
      s2l "Nov 22, 2025" ∧
    (∀ (config : Config) (ranges : List Range) (s : List Char) (off : Nat),
      indexInRanges off ranges = true → numRepl config ranges s off = s) ∧
    (∀ (text : List Char) (o L : Nat), wordMatchAt text o = some L →
      indexInRanges o (findDateRanges text) = false) :=
  ⟨by decide, by decide, fun _ _ _ _ h => numRepl_of_inRanges h,
    fun _ _ _ hw => wordMatch_not_in_ranges hw⟩

/-- C4 witness: the numeric match `2025` of `"Nov 22, 2025"` starts at
offset 8, inside the protected range `[0, 12)`, and is returned
unchanged; and the word match `ten` of `"May 5 ten"` starts outside every
protected range of that string. -/
theorem C4_date_preservation_witness :
    indexInRanges 8 (findDateRanges (s2l "Nov 22, 2025")) = true ∧
    numRepl ⟨true, true⟩ (findDateRanges (s2l "Nov 22, 2025"))
      (s2l "2025") 8 = s2l "2025" ∧
    wordMatchAt (s2l "May 5 ten") 6 = some 3 ∧
    indexInRanges 6 (findDateRanges (s2l "May 5 ten")) = false :=
  ⟨by decide,
    C4_date_preservation.2.2.1 ⟨true, true⟩ _ (s2l "2025") 8 (by decide),
    by decide,
    C4_date_preservation.2.2.2 (s2l "May 5 ten") 6 3 (by decide)⟩

end SeeNo
